import Mathlib

/-!
Verification development for the RAG core of the AI-PDF-Reader repository
(`backend/app/chunking_service.py`, `backend/app/embedding_service.py`,
`backend/app/vector_store.py`, `backend/app/rag_service.py`).

The Python code is shallowly embedded below.  Conventions:

* Numeric values manipulated by numpy / FAISS are modelled over an arbitrary
  linear ordered field `α`; theorems about exact normalization instantiate
  `α := ℝ`, concrete executions instantiate `α := ℚ`.
* Python exceptions are modelled with `Except String`.
* Python dicts with a fixed key set are modelled as structures; a key that a
  writer may omit but a reader `.get`s with a default is folded into the
  structure field's default value.
* External capabilities (the sentence-transformer model, the LLM provider,
  the chunk-row database, PDF text extraction) are parameters of the
  embedded functions.
-/

namespace AIPDF

/-! ## Generic vector arithmetic (numpy / FAISS primitives) -/

/-- Model of `np.dot` on two equal-length float vectors (the sum of pointwise
products).  Vectors of different lengths are truncated by `zipWith`; the
repository only ever dots equal-length vectors. -/
def dotP {α : Type} [LinearOrderedField α] (a b : List α) : α :=
  (List.zipWith (· * ·) a b).sum

/-- Squared L2 norm of a vector: `dotP v v`. -/
def normSq {α : Type} [LinearOrderedField α] (v : List α) : α := dotP v v

/-- Exact comparison "cosine similarity of `q` with `v` is strictly greater
than cosine similarity of `q` with `w`", computed without square roots by
cross-multiplying with the squared norms (sign analysis first, then squares).
A zero vector on either side of a cosine is given score 0, matching
`faiss.normalize_L2`, which leaves all-zero rows unchanged so that their
inner product with any query is 0.

The repository stores only `faiss.normalize_L2`-normalized rows in its
`IndexFlatIP` index and normalizes each query, so FAISS's inner-product
ranking of the stored rows is exactly the cosine ranking of the rows as they
were handed to `add_embeddings`; that ranking is what this comparison
decides, in exact arithmetic. -/
def cosGtB {α : Type} [LinearOrderedField α] (q v w : List α) : Bool :=
  let nv := normSq q * normSq v
  let nw := normSq q * normSq w
  let a := if nv = 0 then 0 else dotP q v
  let b := if nw = 0 then 0 else dotP q w
  let dv := if nv = 0 then 1 else nv
  let dw := if nw = 0 then 1 else nw
  if 0 ≤ a then
    if b < 0 then true else decide (b * b * dv < a * a * dw)
  else
    if 0 ≤ b then false else decide (a * a * dw < b * b * dv)

/-- Ranking of two stored-row positions `i`, `j` for a query `q`:
`i` comes no later than `j` iff its cosine score is strictly greater, or the
scores are equal and `i ≤ j` (deterministic tie-break by position; all
concrete inputs used in this file have pairwise distinct scores). -/
def rankLE {α : Type} [LinearOrderedField α]
    (q : List α) (vecs : List (List α)) (i j : ℕ) : Bool :=
  if cosGtB q (vecs.getD i []) (vecs.getD j []) then true
  else if cosGtB q (vecs.getD j []) (vecs.getD i []) then false
  else decide (i ≤ j)

/-- Insert a position into a list sorted by the boolean relation `le`. -/
def insertPos (le : ℕ → ℕ → Bool) (i : ℕ) : List ℕ → List ℕ
  | [] => [i]
  | j :: rest => if le i j then i :: j :: rest else j :: insertPos le i rest

/-- Insertion sort of positions by the boolean relation `le`. -/
def sortPos (le : ℕ → ℕ → Bool) : List ℕ → List ℕ
  | [] => []
  | i :: rest => insertPos le i (sortPos le rest)

/-! Python strings are sequences of code points; the embedding models the
string operations the chunker uses (`strip`, `split`, slicing) directly by
structural recursion on the character list of a `String`, so that every
definition evaluates inside the kernel. -/

/-- Python `str.strip()` on a character list: drop leading and trailing
whitespace. -/
def pyStripChars (cs : List Char) : List Char :=
  ((cs.dropWhile Char.isWhitespace).reverse.dropWhile Char.isWhitespace).reverse

/-- Python `str.strip()`. -/
def pyStrip (s : String) : String := String.mk (pyStripChars s.data)

/-- Python `text.split(sep)` for a non-empty `sep`, by fuel recursion (one
unit of fuel per list step; `length + 1` units always suffice): at each
position, either the separator matches (leftmost, non-overlapping) and a
part ends, or one character is consumed into the current part. -/
def pySplitGo (sep : List Char) : ℕ → List Char → List (List Char)
  | 0, cs => [cs]
  | fuel + 1, cs =>
      if sep ≠ [] ∧ cs.take sep.length = sep then
        [] :: pySplitGo sep fuel (cs.drop sep.length)
      else
        match cs with
        | [] => [[]]
        | c :: rest =>
            match pySplitGo sep fuel rest with
            | [] => [[c]]
            | p :: ps => (c :: p) :: ps

/-- Python `text.split(sep)` (only ever called with a non-empty `sep`;
`split('')` raises in Python and is modelled upstream in `splitText`). -/
def pySplit (text sep : String) : List String :=
  (pySplitGo sep.data (text.data.length + 1) text.data).map String.mk

/-- Python slicing `text[i:i+n]` (by code points). -/
def pySlice (text : String) (i n : ℕ) : String :=
  String.mk ((text.data.drop i).take n)

/-- Substring test, modelling Python's `separator in text`.  The empty
string is a substring of every string (as in Python).  For a non-empty
pattern, splitting yields more than one part exactly when the pattern
occurs. -/
def strContains (text pat : String) : Bool :=
  if pat = "" then true else (pySplit text pat).length > 1

/-- Python `round` uses round-half-to-even on the scaled value. -/
def roundHalfEven {α : Type} [LinearOrderedField α] [FloorRing α] (y : α) : ℤ :=
  let f := ⌊y⌋
  let r := y - (f : α)
  if r < 1/2 then f
  else if 1/2 < r then f + 1
  else if f % 2 = 0 then f else f + 1

/-- Model of Python `round(x, 3)` in exact arithmetic. -/
def pyRound3 {α : Type} [LinearOrderedField α] [FloorRing α] (x : α) : α :=
  (roundHalfEven (x * 1000) : α) / 1000

/-! ## Chunking service (`backend/app/chunking_service.py`) -/

/-- Configuration of `ChunkingService.__init__` (`chunk_size`,
`chunk_overlap`, `min_chunk_size`). -/
structure ChunkConfig where
  chunk_size : ℕ
  chunk_overlap : ℕ
  min_chunk_size : ℕ
deriving DecidableEq, Repr

/-- The fixed separator priority list set in `ChunkingService.__init__`. -/
def separators : List String :=
  ["\n\n", "\n", ". ", "! ", "? ", "; ", ", ", " ", ""]

/-- The inner `metadata` dict attached to every chunk
(`char_count`, `word_count`). -/
structure ExtraMeta where
  char_count : ℕ := 0
  word_count : ℕ := 0
deriving DecidableEq, Repr

/-- The `DocumentChunk` dataclass. -/
structure DocumentChunk where
  text : String
  page_number : ℕ
  chunk_index : ℕ
  document_id : String
  metadata : ExtraMeta
deriving DecidableEq, Repr

/-- Helper for `wordCount`: count maximal non-whitespace runs, tracking
whether the scan is inside a run. -/
def wordRuns : Bool → List Char → ℕ
  | _, [] => 0
  | inRun, c :: rest =>
      if c.isWhitespace then wordRuns false rest
      else (if inRun then 0 else 1) + wordRuns true rest

/-- Python `len(text.split())`: the number of maximal non-whitespace runs. -/
def wordCount (text : String) : ℕ := wordRuns false text.data

/-- Build one `DocumentChunk` the way `_split_text` does: the stored `text`
is stripped, while `char_count` is the unstripped length. -/
def mkChunk (chunk_text : String) (page : ℕ) (idx : ℕ) (docId : String) :
    DocumentChunk :=
  { text := pyStrip chunk_text
    page_number := page
    chunk_index := idx
    document_id := docId
    metadata := { char_count := chunk_text.length, word_count := wordCount chunk_text } }

/-- State of the greedy packing loop of `_split_text`: the chunks emitted so
far, the current chunk's splits (`current_chunk`) and the running size
accumulator (`current_size`). -/
structure PackState where
  chunks : List DocumentChunk
  cur : List String
  size : ℕ
deriving Repr

/-- One iteration of `for split in splits` in `_split_text` (lines 152-183
of `chunking_service.py`). -/
def packStep (cfg : ChunkConfig) (sep : String) (page : ℕ) (docId : String)
    (startIdx : ℕ) (st : PackState) (split : String) : PackState :=
  let split_size := split.length + sep.length
  if st.size + split_size > cfg.chunk_size ∧ st.cur ≠ [] then
    let chunk_text := String.intercalate sep st.cur
    let chunks' :=
      if cfg.min_chunk_size ≤ (pyStrip chunk_text).length then
        st.chunks ++ [mkChunk chunk_text page (startIdx + st.chunks.length) docId]
      else st.chunks
    let overlap_text :=
      if 2 ≤ st.cur.length then String.intercalate sep (st.cur.drop (st.cur.length - 2))
      else ""
    if overlap_text ≠ "" then
      { chunks := chunks'
        cur := if pyStrip split ≠ "" then [overlap_text, split] else [overlap_text]
        size := overlap_text.length + split_size }
    else
      { chunks := chunks'
        cur := if pyStrip split ≠ "" then [split] else []
        size := split_size }
  else
    if pyStrip split ≠ "" then
      { st with cur := st.cur ++ [split], size := st.size + split_size }
    else st

/-- The trailing "Add remaining chunk" block of `_split_text`
(lines 185-198). -/
def packFinish (cfg : ChunkConfig) (sep : String) (page : ℕ) (docId : String)
    (startIdx : ℕ) (st : PackState) : List DocumentChunk :=
  if st.cur ≠ [] then
    let chunk_text := String.intercalate sep st.cur
    if cfg.min_chunk_size ≤ (pyStrip chunk_text).length then
      st.chunks ++ [mkChunk chunk_text page (startIdx + st.chunks.length) docId]
    else st.chunks
  else st.chunks

/-- The character-count fallback loop of `_split_text` (lines 202-216):
`for i in range(0, len(text), chunk_size - chunk_overlap)`.  A non-positive
Python `range` step never occurs on the (dead, see `splitText`) path that
reaches this code; a zero step is modelled as an empty loop. -/
def slidingChunks (cfg : ChunkConfig) (text : String) (page : ℕ)
    (docId : String) (startIdx : ℕ) : List DocumentChunk :=
  let step := cfg.chunk_size - cfg.chunk_overlap
  if step = 0 then []
  else
    ((List.range ((text.length + step - 1) / step)).map (· * step)).foldl
      (fun chunks i =>
        let chunk_text := pySlice text i cfg.chunk_size
        if cfg.min_chunk_size ≤ (pyStrip chunk_text).length then
          chunks ++ [mkChunk chunk_text page (startIdx + chunks.length) docId]
        else chunks)
      []

/-- Model of `ChunkingService._split_text`.  Python raises
`ValueError: empty separator` from `text.split('')`; since `""` is the last
entry of `separators` and `'' in text` is always true in Python, a text
longer than `chunk_size` that contains no non-empty separator reaches that
call and raises, which is modelled as `Except.error "empty separator"`.
The character-count fallback after the separator loop is therefore
unreachable, but it is embedded (`slidingChunks`) for fidelity. -/
def splitText (cfg : ChunkConfig) (text : String) (page : ℕ)
    (docId : String) (startIdx : ℕ) : Except String (List DocumentChunk) :=
  if text.length ≤ cfg.chunk_size then
    if cfg.min_chunk_size ≤ (pyStrip text).length then
      .ok [mkChunk text page startIdx docId]
    else .ok []
  else
    match separators.find? (fun sep => strContains text sep) with
    | some sep =>
        if sep = "" then .error "empty separator"
        else
          let splits := pySplit text sep
          let st := splits.foldl (packStep cfg sep page docId startIdx)
            { chunks := [], cur := [], size := 0 }
          .ok (packFinish cfg sep page docId startIdx st)
    | none => .ok (slidingChunks cfg text page docId startIdx)

/-- Model of `ChunkingService.chunk_document`.  PDF text extraction via
`fitz` is an external capability: the model takes the per-page extracted
texts directly.  Pages whose stripped text is empty are skipped; the chunk
index counter runs across pages; an exception from `_split_text` is
re-raised (the Python `except` block prints and re-raises). -/
def chunk_document (cfg : ChunkConfig) (pages : List String)
    (docId : String) : Except String (List DocumentChunk) :=
  pages.enum.foldlM
    (fun (acc : List DocumentChunk) (p : ℕ × String) =>
      if pyStrip p.2 = "" then pure acc
      else do
        let pageChunks ← splitText cfg p.2 (p.1 + 1) docId acc.length
        pure (acc ++ pageChunks))
    []

/-! ## Embedding service (`backend/app/embedding_service.py`) -/

/-- The embedding service.  `encode` is the external sentence-transformer
capability `self.model.encode` on a single text (it may raise, modelled with
`Except`); batch encoding is modelled as independent encoding of each text
(`batch_size` only affects performance).  `sqrtFn` is the square-root
operation of the ambient numerics, used by `np.linalg.norm`; theorems about
norms instantiate it with `Real.sqrt`, and concrete rational executions
instantiate it with an exact rational square root (all norms reached there
are perfect squares). -/
structure EmbeddingService (α : Type) where
  embedding_dim : ℕ
  encode : String → Except String (List α)
  sqrtFn : α → α

/-- Model of `np.linalg.norm` on one vector. -/
def npNorm {α : Type} [LinearOrderedField α]
    (svc : EmbeddingService α) (v : List α) : α :=
  svc.sqrtFn (normSq v)

/-- The normalization step shared by `generate_embedding` (lines 59-61) and
`generate_embeddings_batch` (lines 112-113): divide by the L2 norm when it
is positive, otherwise leave the vector unchanged. -/
def normalizeStep {α : Type} [LinearOrderedField α]
    (svc : EmbeddingService α) (v : List α) : List α :=
  let n := npNorm svc v
  if 0 < n then v.map (· / n) else v

/-- Encode each text in order with the injected model capability; the first
failure poisons the whole batch call, as a raise inside `model.encode` on a
list does in Python. -/
def exceptMapM {β γ : Type} (f : β → Except String γ) :
    List β → Except String (List γ)
  | [] => .ok []
  | x :: rest =>
      match f x with
      | .error e => .error e
      | .ok v =>
          match exceptMapM f rest with
          | .error e => .error e
          | .ok vs => .ok (v :: vs)

/-- Python truthiness test used by `if text and text.strip()`:
the text is non-empty and not whitespace-only. -/
def pyNonEmpty (text : String) : Bool := text ≠ "" ∧ pyStrip text ≠ ""

/-- Model of `EmbeddingService.generate_embedding`.  Empty or whitespace
text maps to the zero vector without touching the model; a model error is
caught and also yields the zero vector. -/
def generate_embedding {α : Type} [LinearOrderedField α]
    (svc : EmbeddingService α) (text : String) : List α :=
  if ¬ pyNonEmpty text then List.replicate svc.embedding_dim 0
  else
    match svc.encode text with
    | .error _ => List.replicate svc.embedding_dim 0
    | .ok v => normalizeStep svc v

/-- Model of `EmbeddingService.generate_embeddings_batch`.  Empty texts are
filtered out (keeping their indices), the rest are encoded, normalized
row-wise (`np.where(norms > 0, e / norms, e)`), and re-inserted at their
original positions into a list of zero vectors; a model error on the batch
yields all-zero vectors.  The unused `batch_size` parameter is kept for
signature fidelity. -/
def generate_embeddings_batch {α : Type} [LinearOrderedField α]
    (svc : EmbeddingService α) (texts : List String) (_batch_size : ℕ) :
    List (List α) :=
  if texts = [] then []
  else
    let nonEmpty := texts.enum.filter (fun p => pyNonEmpty p.2)
    if nonEmpty = [] then
      List.replicate texts.length (List.replicate svc.embedding_dim 0)
    else
      match exceptMapM svc.encode (nonEmpty.map Prod.snd) with
      | .error _ =>
          List.replicate texts.length (List.replicate svc.embedding_dim 0)
      | .ok embs =>
          let embs := embs.map (normalizeStep svc)
          ((nonEmpty.map Prod.fst).zip embs).foldl
            (fun result p => result.set p.1 p.2)
            (List.replicate texts.length (List.replicate svc.embedding_dim 0))

/-! ## Vector store (`backend/app/vector_store.py`) -/

/-- One entry of `VectorStore.chunk_metadata`.  The Python dicts are read
back with `.get(key, default)`; an absent key is represented by the field's
default value (every writer in the repository populates every key).
`remove_document` later adds the key `deleted = True`, represented by the
`deleted` field (default `False`, i.e. key absent or false). -/
structure ChunkMeta where
  chunk_id : String := ""
  document_id : String := ""
  chunk_text : String := ""
  page_number : ℕ := 0
  chunk_index : ℕ := 0
  metadata : ExtraMeta := {}
  deleted : Bool := false
deriving DecidableEq, Repr

/-- The `SearchResult` dataclass. -/
structure SearchResult (α : Type) where
  chunk_id : String
  document_id : String
  chunk_text : String
  page_number : ℕ
  chunk_index : ℕ
  similarity_score : α
  metadata : ExtraMeta
deriving DecidableEq, Repr

/-- State of a `VectorStore`.  `vectors` holds the rows in the order they
were handed to `index.add`; FAISS physically stores their
`faiss.normalize_L2` images and `index.ntotal = vectors.length`.  Search is
modelled with the exact cosine ranking of these rows, which coincides with
FAISS's inner-product ranking of the normalized rows (see `cosGtB`).
`document_chunks` is the insertion-ordered dict `document_id -> indices`. -/
structure VectorStore (α : Type) where
  embedding_dim : ℕ
  vectors : List (List α) := []
  chunk_metadata : List ChunkMeta := []
  document_chunks : List (String × List ℕ) := []
deriving DecidableEq, Repr

/-- Lookup in an insertion-ordered dict modelled as an association list. -/
def alookup {β : Type} (k : String) : List (String × β) → Option β
  | [] => none
  | p :: rest => if p.1 = k then some p.2 else alookup k rest

/-- Remove a key from the dict (Python `del`; keys are unique). -/
def eraseKey {β : Type} (k : String) : List (String × β) → List (String × β)
  | [] => []
  | p :: rest => if p.1 = k then rest else p :: eraseKey k rest

/-- Append index `i` to `document_chunks[k]`, creating the key at the end of
the dict if absent (Python dicts preserve insertion order). -/
def addIdx : List (String × List ℕ) → String → ℕ → List (String × List ℕ)
  | [], k, i => [(k, [i])]
  | p :: rest, k, i =>
      if p.1 = k then (p.1, p.2 ++ [i]) :: rest else p :: addIdx rest k i

/-- Model of `VectorStore.add_embeddings`.  Empty input returns `[]` without
touching the store or checking lengths; a length mismatch between the two
non-empty lists raises `ValueError` before any mutation; otherwise the rows
and metadata are appended in parallel and the new positions are returned and
recorded per document (only for entries with a non-empty `document_id`, per
the Python truthiness test `if doc_id`). -/
def add_embeddings {α : Type} [LinearOrderedField α] (s : VectorStore α)
    (embeddings : List (List α)) (chunk_data : List ChunkMeta) :
    Except String (List ℕ × VectorStore α) :=
  if embeddings = [] ∨ chunk_data = [] then .ok ([], s)
  else if embeddings.length ≠ chunk_data.length then
    .error "Number of embeddings must match number of chunk data"
  else
    let start := s.vectors.length
    let idxs := (List.range chunk_data.length).map (· + start)
    let dc := chunk_data.enum.foldl
      (fun l p =>
        if p.2.document_id ≠ "" then addIdx l p.2.document_id (start + p.1)
        else l)
      s.document_chunks
    .ok (idxs,
      { s with
        vectors := s.vectors ++ embeddings
        chunk_metadata := s.chunk_metadata ++ chunk_data
        document_chunks := dc })

/-- Python truthiness of the optional `document_id` argument of
`search_similar`: filtering is on iff the argument is a non-empty string. -/
def filterOn (document_id : Option String) : Bool :=
  match document_id with
  | none => false
  | some d => d ≠ ""

/-- The ranked candidate positions `search_similar` asks FAISS for:
all stored positions sorted by descending similarity, truncated to
`search_k = min(top_k * 3 if document_id else top_k, ntotal)`
(lines 126-129 of `vector_store.py`). -/
def searchCandidates {α : Type} [LinearOrderedField α] (s : VectorStore α)
    (query : List α) (top_k : ℕ) (document_id : Option String) : List ℕ :=
  let search_k := if filterOn document_id then top_k * 3 else top_k
  let search_k := min search_k s.vectors.length
  (sortPos (rankLE query s.vectors) (List.range s.vectors.length)).take search_k

/-- The `SearchResult` that `search_similar` builds for candidate position
`i` (lines 143-151).  The similarity score FAISS reports is the inner
product of the normalized query and row; it is recorded here as
`dotP query row`, which is that value whenever both are unit vectors (as
produced by the embedding service); no ranking or control flow depends on
the recorded value. -/
def resultAt {α : Type} [LinearOrderedField α] (s : VectorStore α)
    (query : List α) (i : ℕ) : SearchResult α :=
  let m := s.chunk_metadata.getD i {}
  { chunk_id := m.chunk_id
    document_id := m.document_id
    chunk_text := m.chunk_text
    page_number := m.page_number
    chunk_index := m.chunk_index
    similarity_score := dotP query (s.vectors.getD i [])
    metadata := m.metadata }

/-- The result-building loop of `search_similar` (lines 132-155): walk the
ranked candidates, skip out-of-range positions, skip entries of other
documents when a filter is on, and stop as soon as `top_k` results are
collected. -/
def buildResults {α : Type} [LinearOrderedField α] (s : VectorStore α)
    (query : List α) (docFilter : Option String) (top_k : ℕ) :
    List ℕ → List (SearchResult α) → List (SearchResult α)
  | [], acc => acc
  | i :: rest, acc =>
      if i < s.chunk_metadata.length then
        if (match docFilter with
            | some d => decide ((s.chunk_metadata.getD i {}).document_id ≠ d)
            | none => false) then
          buildResults s query docFilter top_k rest acc
        else
          let acc' := acc ++ [resultAt s query i]
          if top_k ≤ acc'.length then acc'
          else buildResults s query docFilter top_k rest acc'
      else buildResults s query docFilter top_k rest acc

/-- Model of `VectorStore.search_similar`.  An empty index returns `[]`.
The `try`/`except` around the body catches numpy/FAISS errors (dimension
mismatches); none arise in the model, whose inputs are plain lists. -/
def search_similar {α : Type} [LinearOrderedField α] (s : VectorStore α)
    (query : List α) (top_k : ℕ) (document_id : Option String) :
    List (SearchResult α) :=
  if s.vectors.length = 0 then []
  else
    let docFilter := if filterOn document_id then document_id else none
    buildResults s query docFilter top_k
      (searchCandidates s query top_k document_id) []

/-- The metadata-marking loop of `remove_document` (lines 180-182): set
`deleted = True` at each tracked index that is in range. -/
def markDeleted (meta : List ChunkMeta) (idxs : List ℕ) : List ChunkMeta :=
  idxs.foldl
    (fun m i =>
      if i < m.length then m.set i { m.getD i {} with deleted := true } else m)
    meta

/-- Model of `VectorStore.remove_document`: returns the number of chunks
marked and the new state.  An untracked document returns 0 and leaves the
store unchanged.  The FAISS index (`vectors`) is never touched. -/
def remove_document {α : Type} (s : VectorStore α) (document_id : String) :
    ℕ × VectorStore α :=
  match alookup document_id s.document_chunks with
  | none => (0, s)
  | some idxs =>
      (idxs.length,
        { s with
          chunk_metadata := markDeleted s.chunk_metadata idxs
          document_chunks := eraseKey document_id s.document_chunks })

/-- The dict returned by `VectorStore.get_stats`. -/
structure Stats where
  total_vectors : ℕ
  embedding_dim : ℕ
  num_documents : ℕ
  chunks_per_document : List (String × ℕ)
deriving DecidableEq, Repr

/-- Model of `VectorStore.get_stats`. -/
def get_stats {α : Type} (s : VectorStore α) : Stats :=
  { total_vectors := s.vectors.length
    embedding_dim := s.embedding_dim
    num_documents := s.document_chunks.length
    chunks_per_document := s.document_chunks.map (fun p => (p.1, p.2.length)) }

/-! ## RAG service (`backend/app/rag_service.py`) -/

/-- One entry of the `sources` list built by `generate_rag_response`. -/
structure SourceInfo (α : Type) where
  page : ℕ
  text : String
  similarity : α
  document_id : String
deriving DecidableEq, Repr

/-- The dict returned by `generate_rag_response`.  The Python dicts carry
different key sets on different paths; an `Option` field set to `none`
represents an absent key.  In particular the method never adds a `success`
key on any path. -/
structure RAGAnswer (α : Type) where
  response : String
  sources : List (SourceInfo α)
  has_context : Bool
  num_sources : Option ℕ := none
  error : Option String := none
  success : Option Bool := none
deriving DecidableEq, Repr

/-- The dict returned by `process_document`.  `elapsed_seconds` (wall-clock
timing) is not modelled. -/
structure ProcessResult where
  success : Bool
  error : Option String := none
  document_id : Option String := none
  chunks_created : Option ℕ := none
  embeddings_generated : Option ℕ := none
  chunks_stored : Option ℕ := none
  vectors_added : Option ℕ := none
deriving DecidableEq, Repr

/-- Model of `RAGService.search_documents`: embed the query and search the
store.  The surrounding `try`/`except` catches nothing in the model (both
callees are total). -/
def search_documents {α : Type} [LinearOrderedField α]
    (svc : EmbeddingService α) (store : VectorStore α) (query : String)
    (top_k : ℕ) (document_id : Option String) : List (SearchResult α) :=
  search_similar store (generate_embedding svc query) top_k document_id

/-- The no-context prompt of `generate_rag_response` (lines 210-214). -/
def noContextPrompt (query : String) : String :=
  "You are a helpful AI assistant.\n                \nUser question: " ++
  query ++
  "\n\nAnswer: I don\x27t have any relevant information in the uploaded documents to answer this question. Please ask about content from the uploaded PDFs."

/-- One block of the numbered context (line 228):
`[Source i - Page p, Score: s]\n<text>`.  `fmt` models Python's `:.2f`
float formatting, which is opaque to every claim. -/
def contextBlock {α : Type} (fmt : α → String) (i : ℕ)
    (r : SearchResult α) : String :=
  "[Source " ++ toString i ++ " - Page " ++ toString r.page_number ++
  ", Score: " ++ fmt r.similarity_score ++ "]\n" ++ r.chunk_text

/-- The joined context block (lines 225-231). -/
def buildContext {α : Type} (fmt : α → String)
    (results : List (SearchResult α)) : String :=
  String.intercalate "\n\n"
    (results.enum.map (fun p => contextBlock fmt (p.1 + 1) p.2))

/-- The grounded RAG prompt (lines 234-248). -/
def ragPrompt (context query : String) : String :=
  "You are a helpful AI assistant that answers questions based on provided document context.\n\nCONTEXT FROM DOCUMENTS:\n" ++
  context ++
  "\n\nUSER QUESTION: " ++ query ++
  "\n\nINSTRUCTIONS:\n- Answer the question using ONLY the information from the context above\n- Be specific and cite which source(s) you\x27re using (e.g., \"According to Source 1...\")\n- If the context doesn\x27t contain enough information to fully answer the question, say so\n- Keep your answer concise and accurate\n- Don\x27t make up information not present in the context\n\nANSWER:"

/-- One entry of `sources` (lines 254-262): truncate the excerpt at 200
characters and round the similarity to 3 decimals. -/
def mkSource {α : Type} [LinearOrderedField α] [FloorRing α]
    (r : SearchResult α) : SourceInfo α :=
  { page := r.page_number
    text :=
      if 200 < r.chunk_text.length then pySlice r.chunk_text 0 200 ++ "..."
      else r.chunk_text
    similarity := pyRound3 r.similarity_score
    document_id := r.document_id }

/-- Model of `RAGService.generate_rag_response`.  `llm` is the external
provider capability `llm_provider.generate_text` (prompt, max_tokens ->
response content), which may raise.  The body is an `Except` computation
that propagates the provider's exception; the trailing `match` is the
method's `except` block, which converts any exception into the apology dict
(so the method itself is total and never raises). -/
def generate_rag_response {α : Type} [LinearOrderedField α] [FloorRing α]
    (svc : EmbeddingService α) (store : VectorStore α)
    (llm : String → ℕ → Except String String) (fmt : α → String)
    (query : String) (document_id : Option String) (top_k : ℕ)
    (max_tokens : ℕ) : RAGAnswer α :=
  let body : Except String (RAGAnswer α) := do
    let search_results := search_documents svc store query top_k document_id
    if search_results = [] then
      let content ← llm (noContextPrompt query) max_tokens
      pure { response := content, sources := [], has_context := false }
    else
      let context := buildContext fmt search_results
      let content ← llm (ragPrompt context query) max_tokens
      pure { response := content
             sources := search_results.map mkSource
             has_context := true
             num_sources := some search_results.length }
  match body with
  | .ok r => r
  | .error e =>
      { response := "Sorry, I encountered an error: " ++ e
        sources := []
        has_context := false
        error := some e }

/-- Model of `RAGService.process_document`.  `dbStore` is the external
chunk-row database capability `db.store_chunk`, modelled as a pure
id-assigning function (a database failure would surface through the same
`except` block as any other exception).  PDF extraction is external: the
model takes the extracted page texts (see `chunk_document`).  The body is an
`Except` computation; the trailing `match` is the method's `except` block,
which converts an exception into a failure dict and leaves the store as it
was (all Python mutations of the vector store happen after the last
raise point inside `add_embeddings`). -/
def process_document {α : Type} [LinearOrderedField α] (cfg : ChunkConfig)
    (svc : EmbeddingService α) (dbStore : DocumentChunk → String)
    (store : VectorStore α) (document_id : String) (pages : List String)
    (batch_size : ℕ) : ProcessResult × VectorStore α :=
  let body : Except String (ProcessResult × VectorStore α) := do
    let chunks ← chunk_document cfg pages document_id
    if chunks = [] then
      pure ({ success := false
              error := some "No chunks created from document"
              chunks_created := some 0 }, store)
    else
      let chunk_texts := chunks.map (·.text)
      let embeddings := generate_embeddings_batch svc chunk_texts batch_size
      let chunk_ids := (chunks.zip embeddings).map (fun p => dbStore p.1)
      let chunk_metadata := (chunk_ids.zip chunks).map (fun p =>
        { chunk_id := p.1
          document_id := p.2.document_id
          chunk_text := p.2.text
          page_number := p.2.page_number
          chunk_index := p.2.chunk_index
          metadata := p.2.metadata : ChunkMeta })
      let r ← add_embeddings store embeddings chunk_metadata
      pure ({ success := true
              document_id := some document_id
              chunks_created := some chunks.length
              embeddings_generated := some embeddings.length
              chunks_stored := some chunk_ids.length
              vectors_added := some r.1.length }, r.2)
  match body with
  | .ok r => r
  | .error e =>
      ({ success := false, error := some e, document_id := some document_id },
        store)

/-! ## Derived notions and concrete instances used by the theorems -/

/-- L2 norm over the reals, `np.linalg.norm` in exact arithmetic. -/
noncomputable def l2norm (v : List ℝ) : ℝ := Real.sqrt (normSq v)

/-- A vector all of whose components are zero. -/
def isZeroVec {α : Type} [LinearOrderedField α] (v : List α) : Prop :=
  ∀ x ∈ v, x = 0

/-- Well-formedness of a `VectorStore`, maintained by its own operations:
document keys are unique, and every tracked index is in range and points at
metadata carrying that document id. -/
def storeWF {α : Type} (s : VectorStore α) : Prop :=
  (s.document_chunks.map Prod.fst).Nodup ∧
  ∀ p ∈ s.document_chunks, ∀ i ∈ p.2,
    i < s.chunk_metadata.length ∧
    (s.chunk_metadata.getD i {}).document_id = p.1

/-- Exact square root on the rationals whose reduced numerator and
denominator are perfect squares; every norm reached by the concrete rational
instantiations below is such a value (`np.sqrt` idealized there). -/
def ratSqrt (q : ℚ) : ℚ :=
  if 0 ≤ q.num then (Int.sqrt q.num : ℚ) / (Nat.sqrt q.den : ℚ) else 0

/-- A concrete rational embedding service whose model embeds every text as
the unit vector `[1, 0]`. -/
def exSvcQ : EmbeddingService ℚ :=
  { embedding_dim := 2, encode := fun _ => .ok [1, 0], sqrtFn := ratSqrt }

/-- The configuration of the module-level `chunking_service` instance. -/
def cfgDefault : ChunkConfig := ⟨1000, 200, 100⟩

/-- A 100-character page, exactly `min_chunk_size` under `cfgDefault`. -/
def page100 : String := String.mk (List.replicate 100 'a')

/-- The concrete store of the C1 failing input: one unit vector for
document `d1`, then `remove_document "d1"`. -/
def c1Store : VectorStore ℚ :=
  match add_embeddings { embedding_dim := 2 } [[1, 0]]
      [{ chunk_id := "c0", document_id := "d1" }] with
  | .ok r => (remove_document r.2 "d1").2
  | .error _ => { embedding_dim := 2 }

/-- The concrete store of the C4 counterexample: three entries of document
`b` more similar to the query `[1, 0]` than the single entry of document
`a`. -/
def c4Store : VectorStore ℚ :=
  match add_embeddings { embedding_dim := 2 }
      [[1, 0], [4/5, 3/5], [3/5, 4/5], [0, 1]]
      [{ chunk_id := "b0", document_id := "b" },
       { chunk_id := "b1", document_id := "b" },
       { chunk_id := "b2", document_id := "b" },
       { chunk_id := "a0", document_id := "a" }] with
  | .ok r => r.2
  | .error _ => { embedding_dim := 2 }

/-- First ingestion of `page100` as document `doc1` into an empty store. -/
def c2Run1 : ProcessResult × VectorStore ℚ :=
  process_document cfgDefault exSvcQ (fun _ => "cid") { embedding_dim := 2 }
    "doc1" [page100] 32

/-- Second, identical ingestion of the same document on top of the first. -/
def c2Run2 : ProcessResult × VectorStore ℚ :=
  process_document cfgDefault exSvcQ (fun _ => "cid") c2Run1.2
    "doc1" [page100] 32

/-- The overlap contexts the packing loop of `_split_text` can carry: the
`sep`-join of two non-blank tokens of the split (the previous chunk's last
two packed segments), or a carried overlap extended by one more non-blank
token (when the overlap was re-seeded together with a token).  Every such
string is a `sep`-join of two or more non-blank tokens of `splits`. -/
inductive IsOverlap (sep : String) (splits : List String) : String → Prop
  | base (s1 s2 : String) : s1 ∈ splits → pyStrip s1 ≠ "" → s2 ∈ splits →
      pyStrip s2 ≠ "" → IsOverlap sep splits (s1 ++ sep ++ s2)
  | step (o s : String) : IsOverlap sep splits o → s ∈ splits →
      pyStrip s ≠ "" → IsOverlap sep splits (o ++ sep ++ s)

/-- Shape of a chunk emitted by the packing loop: its text fits in
`chunk_size`, or it is built from the packed segments of `splits` (the
separator-split of the input text): the strip of a single indivisible
token, the strip of a carried overlap join, or the strip of a carried
overlap join followed by one more token.  Only these shapes can exceed
`chunk_size`. -/
def goodChunk (cfg : ChunkConfig) (sep : String) (splits : List String)
    (c : DocumentChunk) : Prop :=
  c.text.length ≤ cfg.chunk_size ∨
  (∃ tok ∈ splits, pyStrip tok ≠ "" ∧ c.text = pyStrip tok) ∨
  (∃ o, IsOverlap sep splits o ∧ c.text = pyStrip o) ∨
  (∃ o tok, IsOverlap sep splits o ∧ tok ∈ splits ∧ pyStrip tok ≠ "" ∧
    c.text = pyStrip (o ++ sep ++ tok))

/-- Shape of the current chunk during the packing loop: a list of non-blank
tokens of `splits`, optionally headed by a carried overlap join. -/
def curOK (sep : String) (splits : List String) (cur : List String) : Prop :=
  (∀ x ∈ cur, x ∈ splits ∧ pyStrip x ≠ "") ∨
  (∃ o rest, cur = o :: rest ∧ IsOverlap sep splits o ∧
    ∀ x ∈ rest, x ∈ splits ∧ pyStrip x ≠ "")

/-- Invariant of the packing loop of `_split_text`: the joined current
chunk never exceeds the size accumulator; the accumulator exceeds
`chunk_size` only right after overlap seeding, when the current chunk has
at most two segments; the current chunk is made of packed segments
(`curOK`); and every chunk emitted so far is `goodChunk`. -/
def packInv (cfg : ChunkConfig) (sep : String) (splits : List String)
    (st : PackState) : Prop :=
  (String.intercalate sep st.cur).length ≤ st.size ∧
  (st.size ≤ cfg.chunk_size ∨ st.cur.length ≤ 2) ∧
  curOK sep splits st.cur ∧
  ∀ c ∈ st.chunks, goodChunk cfg sep splits c

/-- A concrete real embedding service whose model embeds every text as
`[3, 4]` (norm 5). -/
noncomputable def exSvcR : EmbeddingService ℝ :=
  { embedding_dim := 2, encode := fun _ => .ok [3, 4], sqrtFn := Real.sqrt }

/-- A concrete real embedding service whose model embeds every text as the
unit vector `[1, 0]`. -/
noncomputable def exSvcR8 : EmbeddingService ℝ :=
  { embedding_dim := 2, encode := fun _ => .ok [1, 0], sqrtFn := Real.sqrt }

/-- The answer produced when every call to the generator fails with
`"boom"` against an empty store. -/
def c6Answer : RAGAnswer ℚ :=
  generate_rag_response exSvcQ { embedding_dim := 2 }
    (fun _ _ => .error "boom") (fun _ => "0.00") "q" none 5 500

end AIPDF

namespace AIPDF

/-! ## Theorems for the claims -/

/-- C1: after `remove_document "d1"`, the single entry of `d1` is marked
with the tombstone flag, yet `search_similar` — with or without the
document filter — still returns it: the search loop never consults the
`deleted` flag.  This evaluates the code at the failing input of the claim
(which the spec states as an invariant and the code violates). -/
theorem C1_search_returns_tombstoned_entry :
    (c1Store.chunk_metadata.getD 0 {}).deleted = true ∧
    (resultAt c1Store [1, 0] 0).document_id = "d1" ∧
    search_similar c1Store [1, 0] 5 none = [resultAt c1Store [1, 0] 0] ∧
    search_similar c1Store [1, 0] 5 (some "d1") = [resultAt c1Store [1, 0] 0] := by
  with_unfolding_all decide

/-- C3: a text of 11 identical characters with `chunk_size = 10` contains
no non-empty separator; `_split_text` reaches the empty-string separator
(`'' in text` is always true in Python) and `text.split('')` raises
`ValueError: empty separator` instead of falling back to sliding windows;
`chunk_document` re-raises it. -/
theorem C3_dense_text_raises_value_error :
    splitText ⟨10, 2, 1⟩ (String.mk (List.replicate 11 'a')) 1 "d" 0 =
      .error "empty separator" ∧
    chunk_document ⟨10, 2, 1⟩ [String.mk (List.replicate 11 'a')] "d" =
      .error "empty separator" :=
  ⟨rfl, rfl⟩

/-- C2 counterexample: ingesting the same 100-character document twice
leaves the store answering an unfiltered search with two hits where a
single ingestion yields one — `process_document` never tombstones the
earlier entries, so the results are not the same as after a single call. -/
theorem C2_counterexample :
    c2Run1.1.success = true ∧ c2Run2.1.success = true ∧
    (search_similar c2Run1.2 [1, 0] 5 none).length = 1 ∧
    (search_similar c2Run2.2 [1, 0] 5 none).length = 2 := by
  with_unfolding_all decide

/-- C4 counterexample: the store holds one non-deleted entry of document
`a`, but a document-filtered search with `top_k = 1` returns no results:
the `a` entry ranks fourth for the query while the over-fetch window is
`min(1 * 3, 4) = 3`. -/
theorem C4_counterexample :
    (c4Store.chunk_metadata.getD 3 {}).document_id = "a" ∧
    (c4Store.chunk_metadata.getD 3 {}).deleted = false ∧
    search_similar c4Store [1, 0] 1 (some "a") = [] := by
  with_unfolding_all decide

/-- Dropping a prefix never lengthens a list. -/
theorem length_dropWhile_le (p : Char → Bool) :
    ∀ (l : List Char), (l.dropWhile p).length ≤ l.length := by
  intro l
  induction l with
  | nil => exact Nat.le_refl 0
  | cons c rest ih =>
      rw [List.dropWhile_cons]
      split
      · exact Nat.le_succ_of_le ih
      · exact Nat.le_refl _

/-- Stripping never lengthens a string. -/
theorem length_pyStrip_le (s : String) : (pyStrip s).length ≤ s.length := by
  show (pyStripChars s.data).length ≤ s.data.length
  rw [pyStripChars, List.length_reverse]
  calc ((s.data.dropWhile Char.isWhitespace).reverse.dropWhile
          Char.isWhitespace).length
      ≤ (s.data.dropWhile Char.isWhitespace).reverse.length :=
        length_dropWhile_le _ _
    _ = (s.data.dropWhile Char.isWhitespace).length := List.length_reverse _
    _ ≤ s.data.length := length_dropWhile_le _ _

/-- The accumulator of `String.intercalate.go` factors out on the left. -/
theorem intercalate_go_append (sep : String) :
    ∀ (rest : List String) (x y : String),
      String.intercalate.go (x ++ y) sep rest =
        x ++ String.intercalate.go y sep rest := by
  intro rest
  induction rest with
  | nil => intro x y; rfl
  | cons a as ih =>
      intro x y
      show String.intercalate.go (x ++ y ++ sep ++ a) sep as =
        x ++ String.intercalate.go (y ++ sep ++ a) sep as
      rw [show x ++ y ++ sep ++ a = x ++ (y ++ sep ++ a) by
        simp [String.append_assoc]]
      exact ih x (y ++ sep ++ a)

/-- Unfolding `String.intercalate` on a two-or-more-element list. -/
theorem intercalate_cons₂ (sep a b : String) (rest : List String) :
    String.intercalate sep (a :: b :: rest) =
      a ++ sep ++ String.intercalate sep (b :: rest) := by
  show String.intercalate.go (a ++ sep ++ b) sep rest =
    a ++ sep ++ String.intercalate.go b sep rest
  exact intercalate_go_append sep rest (a ++ sep) b

/-- Length of the join after appending one more segment to a non-empty
current chunk. -/
theorem intercalate_append_single_length (sep x : String) :
    ∀ (cur : List String), cur ≠ [] →
      (String.intercalate sep (cur ++ [x])).length =
        (String.intercalate sep cur).length + sep.length + x.length := by
  intro cur
  induction cur with
  | nil => intro h; exact absurd rfl h
  | cons a rest ih =>
      intro _
      cases rest with
      | nil =>
          show (String.intercalate sep [a, x]).length = _
          rw [intercalate_cons₂]
          show (a ++ sep ++ x).length = a.length + sep.length + x.length
          rw [String.length_append, String.length_append]
      | cons b rest' =>
          show (String.intercalate sep (a :: (b :: rest') ++ [x])).length = _
          rw [show a :: (b :: rest') ++ [x] = a :: ((b :: rest') ++ [x]) from
            rfl, show (b :: rest') ++ [x] = b :: (rest' ++ [x]) from rfl,
            intercalate_cons₂, String.length_append, String.length_append,
            show b :: (rest' ++ [x]) = (b :: rest') ++ [x] from rfl,
            ih (by simp), intercalate_cons₂, String.length_append,
            String.length_append]
          omega

/-- Length of the join of a two-element chunk. -/
theorem intercalate_pair_length (sep a b : String) :
    (String.intercalate sep [a, b]).length =
      a.length + sep.length + b.length := by
  rw [intercalate_cons₂]
  show (a ++ sep ++ b).length = _
  rw [String.length_append, String.length_append]

/-- Unfolding `String.intercalate` on a pair. -/
theorem intercalate_pair (sep a b : String) :
    String.intercalate sep [a, b] = a ++ sep ++ b := by
  rw [intercalate_cons₂]
  rfl

/-- A list of length at least two ends in two of its own elements. -/
theorem drop_last_two :
    ∀ (l : List String), 2 ≤ l.length →
      ∃ a b, l.drop (l.length - 2) = [a, b] ∧ a ∈ l ∧ b ∈ l := by
  intro l
  induction l with
  | nil => intro h; simp at h
  | cons x rest ih =>
      intro h
      by_cases h2 : 2 ≤ rest.length
      · obtain ⟨a, b, hd, ha, hb⟩ := ih h2
        refine ⟨a, b, ?_, List.mem_cons_of_mem x ha,
          List.mem_cons_of_mem x hb⟩
        have hlen : (x :: rest).length - 2 = (rest.length - 2) + 1 := by
          simp only [List.length_cons]
          omega
        rw [hlen, List.drop_succ_cons, hd]
      · have h1 : rest.length = 1 := by
          simp only [List.length_cons] at h
          omega
        obtain ⟨y, hy⟩ := List.length_eq_one.mp h1
        subst hy
        exact ⟨x, y, by simp, List.mem_cons_self _ _, by simp⟩

/-- The overlap context the loop carries from a current chunk of length at
least two — the join of its last two segments — is an overlap join. -/
theorem overlap_isOverlap (sep : String) (splits : List String)
    (cur : List String) (h2 : 2 ≤ cur.length)
    (hok : curOK sep splits cur) :
    IsOverlap sep splits
      (String.intercalate sep (cur.drop (cur.length - 2))) := by
  rcases hok with hall | ⟨o, rest, rfl, ho, hrest⟩
  · obtain ⟨a, b, hd, ha, hb⟩ := drop_last_two cur h2
    rw [hd, intercalate_pair]
    exact IsOverlap.base a b (hall a ha).1 (hall a ha).2 (hall b hb).1
      (hall b hb).2
  · cases rest with
    | nil => simp at h2
    | cons y rest' =>
        cases rest' with
        | nil =>
            rw [show (o :: [y]).length - 2 = 0 from rfl, List.drop_zero,
              intercalate_pair]
            exact IsOverlap.step o y ho (hrest y (by simp)).1
              (hrest y (by simp)).2
        | cons z rest'' =>
            obtain ⟨a, b, hd, ha, hb⟩ := drop_last_two (y :: z :: rest'')
              (by simp only [List.length_cons]; omega)
            have hlen : (o :: y :: z :: rest'').length - 2 =
                ((y :: z :: rest'').length - 2) + 1 := by
              simp only [List.length_cons]
              omega
            rw [hlen, List.drop_succ_cons, hd, intercalate_pair]
            exact IsOverlap.base a b (hrest a ha).1 (hrest a ha).2
              (hrest b hb).1 (hrest b hb).2

/-- The chunk emitted when the packing loop closes the current chunk is
`goodChunk`: within the bound when the accumulator is, and otherwise (the
current chunk then having at most two segments, by the invariant) the strip
of a single token, of an overlap join, or of an overlap join followed by
one token. -/
theorem emit_goodChunk (cfg : ChunkConfig) (sep : String)
    (splits : List String) (page : ℕ) (docId : String) (idx : ℕ)
    (st : PackState) (hne : st.cur ≠ [])
    (hjoin : (String.intercalate sep st.cur).length ≤ st.size)
    (hsz : st.size ≤ cfg.chunk_size ∨ st.cur.length ≤ 2)
    (hcur : curOK sep splits st.cur) :
    goodChunk cfg sep splits
      (mkChunk (String.intercalate sep st.cur) page idx docId) := by
  rcases hsz with h | h
  · left
    show (pyStrip (String.intercalate sep st.cur)).length ≤ cfg.chunk_size
    exact le_trans (length_pyStrip_le _) (le_trans hjoin h)
  · obtain ⟨x, rest, hc⟩ : ∃ x rest, st.cur = x :: rest := by
      cases hcc : st.cur with
      | nil => exact absurd hcc hne
      | cons x rest => exact ⟨x, rest, rfl⟩
    rw [hc] at h hcur ⊢
    cases rest with
    | nil =>
        rcases hcur with hall | ⟨o, rest0, heq, ho, _⟩
        · right; left
          refine ⟨x, (hall x (by simp)).1, (hall x (by simp)).2, ?_⟩
          show pyStrip (String.intercalate sep [x]) = pyStrip x
          rfl
        · injection heq with h1 _
          right; right; left
          refine ⟨x, h1 ▸ ho, ?_⟩
          show pyStrip (String.intercalate sep [x]) = pyStrip x
          rfl
    | cons y rest' =>
        have hr : rest' = [] := by
          simp only [List.length_cons] at h
          exact List.length_eq_zero.mp (by omega)
        subst hr
        rcases hcur with hall | ⟨o, rest0, heq, ho, hrest⟩
        · right; right; left
          refine ⟨x ++ sep ++ y,
            IsOverlap.base x y (hall x (by simp)).1 (hall x (by simp)).2
              (hall y (by simp)).1 (hall y (by simp)).2, ?_⟩
          show pyStrip (String.intercalate sep [x, y]) =
            pyStrip (x ++ sep ++ y)
          rw [intercalate_pair]
        · injection heq with h1 h2
          right; right; right
          refine ⟨x, y, h1 ▸ ho, (hrest y (h2 ▸ List.mem_singleton_self y)).1,
            (hrest y (h2 ▸ List.mem_singleton_self y)).2, ?_⟩
          show pyStrip (String.intercalate sep [x, y]) =
            pyStrip (x ++ sep ++ y)
          rw [intercalate_pair]

/-- One step of the packing loop, on a token of the split, preserves the
invariant. -/
theorem packStep_inv (cfg : ChunkConfig) (sep : String)
    (splits : List String) (page : ℕ) (docId : String) (startIdx : ℕ)
    (st : PackState) (split : String) (hsplit : split ∈ splits)
    (h : packInv cfg sep splits st) :
    packInv cfg sep splits
      (packStep cfg sep page docId startIdx st split) := by
  obtain ⟨hjoin, hsz, hcur, hgood⟩ := h
  simp only [packStep]
  by_cases hcond :
      st.size + (split.length + sep.length) > cfg.chunk_size ∧ st.cur ≠ []
  · rw [if_pos hcond]
    have hgood' : ∀ c ∈
        (if cfg.min_chunk_size ≤
            (pyStrip (String.intercalate sep st.cur)).length then
          st.chunks ++ [mkChunk (String.intercalate sep st.cur) page
            (startIdx + st.chunks.length) docId]
        else st.chunks), goodChunk cfg sep splits c := by
      intro c hc
      split at hc
      · rcases List.mem_append.mp hc with hm | hm
        · exact hgood c hm
        · rw [List.mem_singleton.mp hm]
          exact emit_goodChunk cfg sep splits page docId _ st hcond.2 hjoin
            hsz hcur
      · exact hgood c hc
    set ov := (if 2 ≤ st.cur.length then
        String.intercalate sep (st.cur.drop (st.cur.length - 2))
      else "") with hovdef
    by_cases hov : ov ≠ ""
    · have h2 : 2 ≤ st.cur.length := by
        by_contra hlt
        apply hov
        rw [hovdef, if_neg hlt]
      have hovIs : IsOverlap sep splits ov := by
        rw [hovdef, if_pos h2]
        exact overlap_isOverlap sep splits st.cur h2 hcur
      rw [if_pos hov]
      by_cases hsp : pyStrip split ≠ ""
      · rw [if_pos hsp]
        refine ⟨?_, Or.inr (by simp), ?_, hgood'⟩
        · show (String.intercalate sep [ov, split]).length ≤
            ov.length + (split.length + sep.length)
          rw [intercalate_pair_length]
          omega
        · exact Or.inr ⟨ov, [split], rfl, hovIs, fun x hx => by
            rw [List.mem_singleton.mp hx]
            exact ⟨hsplit, hsp⟩⟩
      · rw [if_neg hsp]
        refine ⟨?_, Or.inr (by simp), ?_, hgood'⟩
        · show (String.intercalate sep [ov]).length ≤
            ov.length + (split.length + sep.length)
          show ov.length ≤ ov.length + (split.length + sep.length)
          omega
        · exact Or.inr ⟨ov, [], rfl, hovIs, fun x hx =>
            absurd hx (List.not_mem_nil x)⟩
    · rw [if_neg hov]
      by_cases hsp : pyStrip split ≠ ""
      · rw [if_pos hsp]
        refine ⟨?_, Or.inr (by simp), ?_, hgood'⟩
        · show (String.intercalate sep [split]).length ≤
            split.length + sep.length
          show split.length ≤ split.length + sep.length
          omega
        · exact Or.inl (fun x hx => by
            rw [List.mem_singleton.mp hx]
            exact ⟨hsplit, hsp⟩)
      · rw [if_neg hsp]
        exact ⟨Nat.zero_le _, Or.inr (by simp),
          Or.inl (fun x hx => absurd hx (List.not_mem_nil x)), hgood'⟩
  · rw [if_neg hcond]
    by_cases hsp : pyStrip split ≠ ""
    · rw [if_pos hsp]
      refine ⟨?_, ?_, ?_, hgood⟩
      · show (String.intercalate sep (st.cur ++ [split])).length ≤
          st.size + (split.length + sep.length)
        by_cases hcure : st.cur = []
        · rw [hcure]
          show split.length ≤ st.size + (split.length + sep.length)
          omega
        · rw [intercalate_append_single_length sep split st.cur hcure]
          omega
      · rcases Nat.lt_or_ge cfg.chunk_size
            (st.size + (split.length + sep.length)) with hlt | hle
        · rcases not_and_or.mp hcond with hc | hc
          · exact absurd hlt (by omega)
          · rw [not_ne_iff.mp hc]
            exact Or.inr (by simp)
        · exact Or.inl (by simpa using hle)
      · rcases hcur with hall | ⟨o, rest, heq, ho, hrest⟩
        · refine Or.inl (fun x hx => ?_)
          rcases List.mem_append.mp hx with hm | hm
          · exact hall x hm
          · rw [List.mem_singleton.mp hm]
            exact ⟨hsplit, hsp⟩
        · refine Or.inr ⟨o, rest ++ [split], by rw [heq]; rfl, ho,
            fun x hx => ?_⟩
          rcases List.mem_append.mp hx with hm | hm
          · exact hrest x hm
          · rw [List.mem_singleton.mp hm]
            exact ⟨hsplit, hsp⟩
    · rw [if_neg hsp]
      exact ⟨hjoin, hsz, hcur, hgood⟩

/-- The packing fold over any sublist of the split tokens preserves the
invariant. -/
theorem packFold_inv (cfg : ChunkConfig) (sep : String)
    (splits : List String) (page : ℕ) (docId : String) (startIdx : ℕ) :
    ∀ (l : List String), (∀ x ∈ l, x ∈ splits) →
      ∀ (st : PackState), packInv cfg sep splits st →
      packInv cfg sep splits
        (l.foldl (packStep cfg sep page docId startIdx) st) := by
  intro l
  induction l with
  | nil => intro _ st h; exact h
  | cons x rest ih =>
      intro hsub st h
      rw [List.foldl_cons]
      exact ih (fun y hy => hsub y (List.mem_cons_of_mem x hy)) _
        (packStep_inv cfg sep splits page docId startIdx st x
          (hsub x (List.mem_cons_self x rest)) h)

/-- Chunks returned by the trailing emit of the packing loop are all
`goodChunk`. -/
theorem packFinish_good (cfg : ChunkConfig) (sep : String)
    (splits : List String) (page : ℕ) (docId : String) (startIdx : ℕ)
    (st : PackState) (h : packInv cfg sep splits st) :
    ∀ c ∈ packFinish cfg sep page docId startIdx st,
      goodChunk cfg sep splits c := by
  obtain ⟨hjoin, hsz, hcur, hgood⟩ := h
  intro c hc
  simp only [packFinish] at hc
  split at hc
  next hne =>
    split at hc
    · rcases List.mem_append.mp hc with hm | hm
      · exact hgood c hm
      · rw [List.mem_singleton.mp hm]
        exact emit_goodChunk cfg sep splits page docId _ st hne hjoin hsz
          hcur
    · exact hgood c hc
  next => exact hgood c hc

/-- Every chunk of the (dead) sliding-window fallback fits in
`chunk_size`. -/
theorem slidingChunks_bound (cfg : ChunkConfig) (text : String) (page : ℕ)
    (docId : String) (startIdx : ℕ) :
    ∀ c ∈ slidingChunks cfg text page docId startIdx,
      c.text.length ≤ cfg.chunk_size := by
  have haux : ∀ (l : List ℕ) (acc : List DocumentChunk),
      (∀ c ∈ acc, c.text.length ≤ cfg.chunk_size) →
      ∀ c ∈ l.foldl (fun chunks i =>
        if cfg.min_chunk_size ≤
            (pyStrip (pySlice text i cfg.chunk_size)).length then
          chunks ++ [mkChunk (pySlice text i cfg.chunk_size) page
            (startIdx + chunks.length) docId]
        else chunks) acc,
        c.text.length ≤ cfg.chunk_size := by
    intro l
    induction l with
    | nil => intro acc hacc c hc; exact hacc c hc
    | cons i rest ih =>
        intro acc hacc c hc
        rw [List.foldl_cons] at hc
        refine ih _ ?_ c hc
        intro c' hc'
        split at hc'
        · rcases List.mem_append.mp hc' with hm | hm
          · exact hacc c' hm
          · rw [List.mem_singleton.mp hm]
            show (pyStrip (pySlice text i cfg.chunk_size)).length ≤
              cfg.chunk_size
            refine le_trans (length_pyStrip_le _) ?_
            show ((text.data.drop i).take cfg.chunk_size).length ≤
              cfg.chunk_size
            exact List.length_take_le _ _
        · exact hacc c' hc'
  intro c hc
  simp only [slidingChunks] at hc
  split at hc
  · cases hc
  · exact haux _ [] (by intro c' hc'; cases hc') c hc

/-- C5 (amended): for every configuration (in particular those with
`0 ≤ chunk_overlap < chunk_size`) and every input, each emitted chunk
either has text length at most `chunk_size`, or is built from the packed
segments of the separator-split of the text, for the selected separator
(one that occurs in the text): its text is the strip of a single
indivisible token of that split, or the strip of a carried overlap join —
a separator-join of two or more non-blank tokens of the split
(`IsOverlap`) — possibly followed by one more token.  Those overlap-join
chunks can exceed `chunk_size`, so the original bound fails beyond the
single-token exception; see the counterexample. -/
theorem C5_chunk_size_bound_amended (cfg : ChunkConfig) (text : String)
    (page : ℕ) (docId : String) (startIdx : ℕ)
    (chunks : List DocumentChunk)
    (_hov : cfg.chunk_overlap < cfg.chunk_size)
    (hok : splitText cfg text page docId startIdx = .ok chunks) :
    ∀ c ∈ chunks, c.text.length ≤ cfg.chunk_size ∨
      ∃ sep ∈ separators, sep ≠ "" ∧ strContains text sep = true ∧
        ((∃ tok ∈ pySplit text sep, pyStrip tok ≠ "" ∧
            c.text = pyStrip tok) ∨
         (∃ o, IsOverlap sep (pySplit text sep) o ∧ c.text = pyStrip o) ∨
         (∃ o tok, IsOverlap sep (pySplit text sep) o ∧
            tok ∈ pySplit text sep ∧ pyStrip tok ≠ "" ∧
            c.text = pyStrip (o ++ sep ++ tok))) := by
  rw [splitText] at hok
  by_cases hsmall : text.length ≤ cfg.chunk_size
  · rw [if_pos hsmall] at hok
    split at hok
    · cases hok
      intro c hc
      rw [List.mem_singleton.mp hc]
      exact Or.inl (le_trans (length_pyStrip_le text) hsmall)
    · cases hok
      intro c hc
      cases hc
  · rw [if_neg hsmall] at hok
    cases hfind : separators.find? (fun sep => strContains text sep) with
    | none =>
        rw [hfind] at hok
        cases hok
        intro c hc
        exact Or.inl (slidingChunks_bound cfg text page docId startIdx c hc)
    | some sep =>
        rw [hfind] at hok
        have hok2 : (if sep = "" then
            (Except.error "empty separator" :
              Except String (List DocumentChunk))
          else
            Except.ok (packFinish cfg sep page docId startIdx
              ((pySplit text sep).foldl
                (packStep cfg sep page docId startIdx)
                { chunks := [], cur := [], size := 0 }))) =
            Except.ok chunks := hok
        by_cases hsep : sep = ""
        · rw [if_pos hsep] at hok2
          cases hok2
        · rw [if_neg hsep] at hok2
          cases hok2
          intro c hc
          have hinv : packInv cfg sep (pySplit text sep)
              ((pySplit text sep).foldl
                (packStep cfg sep page docId startIdx)
                { chunks := [], cur := [], size := 0 }) :=
            packFold_inv cfg sep (pySplit text sep) page docId startIdx
              (pySplit text sep) (fun _ hx => hx)
              { chunks := [], cur := [], size := 0 }
              ⟨Nat.le_refl 0, Or.inl (Nat.zero_le _),
                Or.inl (fun x hx => absurd hx (List.not_mem_nil x)),
                fun c0 hc0 => absurd hc0 (List.not_mem_nil c0)⟩
          have hcont : strContains text sep = true :=
            List.find?_some hfind
          rcases packFinish_good cfg sep (pySplit text sep) page docId
              startIdx _ hinv c hc with h | h | h | h
          · exact Or.inl h
          · exact Or.inr ⟨sep, List.mem_of_find?_eq_some hfind, hsep,
              hcont, Or.inl h⟩
          · exact Or.inr ⟨sep, List.mem_of_find?_eq_some hfind, hsep,
              hcont, Or.inr (Or.inl h)⟩
          · exact Or.inr ⟨sep, List.mem_of_find?_eq_some hfind, hsep,
              hcont, Or.inr (Or.inr h)⟩

/-- Witness for C5's amended theorem at the counterexample input,
specialized to the second emitted chunk (the one of length 14 > 10): it is
built from the packed segments of the space-split of the text. -/
theorem C5_witness :
    (mkChunk "aaaa bbbb cccc" 1 1 "d").text.length ≤ 10 ∨
    ∃ sep ∈ separators, sep ≠ "" ∧
      strContains "aaaa bbbb cccc dddd eeee" sep = true ∧
      ((∃ tok ∈ pySplit "aaaa bbbb cccc dddd eeee" sep,
          pyStrip tok ≠ "" ∧
          (mkChunk "aaaa bbbb cccc" 1 1 "d").text = pyStrip tok) ∨
       (∃ o, IsOverlap sep (pySplit "aaaa bbbb cccc dddd eeee" sep) o ∧
          (mkChunk "aaaa bbbb cccc" 1 1 "d").text = pyStrip o) ∨
       (∃ o tok,
          IsOverlap sep (pySplit "aaaa bbbb cccc dddd eeee" sep) o ∧
          tok ∈ pySplit "aaaa bbbb cccc dddd eeee" sep ∧
          pyStrip tok ≠ "" ∧
          (mkChunk "aaaa bbbb cccc" 1 1 "d").text =
            pyStrip (o ++ sep ++ tok))) :=
  C5_chunk_size_bound_amended ⟨10, 2, 1⟩ "aaaa bbbb cccc dddd eeee" 1 "d" 0
    [mkChunk "aaaa bbbb" 1 0 "d",
      mkChunk "aaaa bbbb cccc" 1 1 "d",
      mkChunk "aaaa bbbb cccc dddd" 1 2 "d",
      mkChunk "aaaa bbbb cccc dddd eeee" 1 3 "d"]
    (by decide) (by with_unfolding_all rfl)
    (mkChunk "aaaa bbbb cccc" 1 1 "d") (by decide)

/-- C5 counterexample: with `chunk_size = 10`, `chunk_overlap = 2`,
`min_chunk_size = 1` (a configuration with `0 ≤ overlap < size`), the text
`"aaaa bbbb cccc dddd eeee"` produces a chunk `"aaaa bbbb cccc"` of length
14 > 10 that contains the chosen separator — it is not a single indivisible
token, so the claimed exception does not apply; the overlap seeding makes
every later chunk contain all earlier content. -/
theorem C5_counterexample :
    ((splitText ⟨10, 2, 1⟩ "aaaa bbbb cccc dddd eeee" 1 "d" 0).toOption.getD
        []).map (fun c => c.text) =
      ["aaaa bbbb", "aaaa bbbb cccc", "aaaa bbbb cccc dddd",
        "aaaa bbbb cccc dddd eeee"] ∧
    10 < "aaaa bbbb cccc".length ∧ strContains "aaaa bbbb cccc" " " = true := by
  with_unfolding_all decide

/-- C6 counterexample: when the generator raises, the returned dict has no
`success` key at all (in particular not `success = False`); it carries the
apology response (which embeds the error message), `has_context = False`
and an `error` key. -/
theorem C6_counterexample :
    c6Answer.response = "Sorry, I encountered an error: boom" ∧
    c6Answer.error = some "boom" ∧ c6Answer.has_context = false ∧
    c6Answer.success = none ∧ c6Answer.success ≠ some false := by
  with_unfolding_all decide

/-- Unfolding `normSq` on a cons cell. -/
theorem normSq_cons {α : Type} [LinearOrderedField α] (x : α) (v : List α) :
    normSq (x :: v) = x * x + normSq v := rfl

/-- A sum of squares is non-negative. -/
theorem normSq_nonneg {α : Type} [LinearOrderedField α] (v : List α) :
    0 ≤ normSq v := by
  induction v with
  | nil => exact le_refl 0
  | cons x rest ih =>
      rw [normSq_cons]
      exact add_nonneg (mul_self_nonneg x) ih

/-- Dividing every component by `n` divides the squared norm by `n * n`. -/
theorem normSq_map_div {α : Type} [LinearOrderedField α] (v : List α)
    (n : α) : normSq (v.map (· / n)) = normSq v / (n * n) := by
  induction v with
  | nil => simp [normSq, dotP]
  | cons x rest ih =>
      rw [List.map_cons, normSq_cons, normSq_cons, ih, div_mul_div_comm,
        div_add_div_same]

/-- A vector of zeros has squared norm zero. -/
theorem normSq_of_isZeroVec {α : Type} [LinearOrderedField α] {v : List α}
    (h : isZeroVec v) : normSq v = 0 := by
  induction v with
  | nil => rfl
  | cons x rest ih =>
      rw [normSq_cons, h x (List.mem_cons_self x rest),
        ih (fun y hy => h y (List.mem_cons_of_mem x hy))]
      ring

/-- C7: with the real square root as the ambient `np` square root, for every
text that is not empty/whitespace and on which the model returns a vector of
non-zero norm, `generate_embedding` returns a vector whose L2 norm is within
`1e-4` of 1 (it is exactly 1 in exact arithmetic); and for every
empty/whitespace text it returns exactly the zero vector of dimension
`embedding_dim` without consulting the model (the result is the same for
every model capability `f`). -/
theorem C7_embedding_normalization (svc : EmbeddingService ℝ)
    (hs : svc.sqrtFn = Real.sqrt) (text : String) :
    (∀ v, pyNonEmpty text = true → svc.encode text = .ok v → normSq v ≠ 0 →
      |l2norm (generate_embedding svc text) - 1| ≤ 1 / 10000) ∧
    (pyNonEmpty text = false →
      generate_embedding svc text = List.replicate svc.embedding_dim 0 ∧
      ∀ f, generate_embedding { svc with encode := f } text =
        List.replicate svc.embedding_dim 0) := by
  constructor
  · intro v hne henc hnz
    have hpos : 0 < normSq v := lt_of_le_of_ne (normSq_nonneg v) (Ne.symm hnz)
    have hn : (0 : ℝ) < npNorm svc v := by
      rw [npNorm, hs]
      exact Real.sqrt_pos.mpr hpos
    rw [generate_embedding, if_neg (by simp [hne]), henc]
    simp only [normalizeStep]
    rw [if_pos hn, l2norm, normSq_map_div]
    have hmul : npNorm svc v * npNorm svc v = normSq v := by
      rw [npNorm, hs]
      exact Real.mul_self_sqrt (normSq_nonneg v)
    rw [hmul, div_self hnz, Real.sqrt_one]
    norm_num
  · intro h
    refine ⟨?_, fun f => ?_⟩ <;> rw [generate_embedding, if_pos (by simp [h])]

/-- Witness for C7: the model always answers `[3, 4]`; embedding `"hi"`
yields a unit vector, embedding a whitespace text yields the zero vector. -/
theorem C7_witness :
    |l2norm (generate_embedding exSvcR "hi") - 1| ≤ 1 / 10000 ∧
    generate_embedding exSvcR " " = List.replicate 2 0 :=
  ⟨(C7_embedding_normalization exSvcR rfl "hi").1 [3, 4] (by decide) rfl
      (by rw [show normSq ([3, 4] : List ℝ) = 25 by
            rw [normSq_cons, normSq_cons]; norm_num [normSq, dotP]]
          norm_num),
    ((C7_embedding_normalization exSvcR rfl " ").2 (by decide)).1⟩

/-- Value of `getD` after `List.set`. -/
theorem getD_set {β : Type} (d : β) :
    ∀ (l : List β) (i j : ℕ) (a : β),
      (l.set i a).getD j d = if i = j ∧ i < l.length then a else l.getD j d := by
  intro l
  induction l with
  | nil => intro i j a; simp
  | cons x xs ih =>
      intro i j a
      cases i with
      | zero =>
          cases j with
          | zero => simp
          | succ j => simp
      | succ i =>
          cases j with
          | zero => simp
          | succ j =>
              have hred : ((x :: xs).set (i + 1) a).getD (j + 1) d =
                  (xs.set i a).getD j d := rfl
              rw [hred, ih, List.length_cons]
              by_cases h : i = j ∧ i < xs.length
              · rw [if_pos h, if_pos (by omega)]
              · rw [if_neg h, if_neg (by omega)]; rfl

/-- Value of `getD` on a `replicate`. -/
theorem getD_replicate {β : Type} (d x : β) :
    ∀ (n i : ℕ), (List.replicate n x).getD i d = if i < n then x else d := by
  intro n
  induction n with
  | zero => intro i; simp
  | succ n ih =>
      intro i
      cases i with
      | zero => simp [List.replicate]
      | succ i =>
          have hred : (List.replicate (n + 1) x).getD (i + 1) d =
              (List.replicate n x).getD i d := rfl
          rw [hred, ih]
          by_cases h : i < n
          · rw [if_pos h, if_pos (by omega)]
          · rw [if_neg h, if_neg (by omega)]

/-- The all-zero vector is a zero vector. -/
theorem isZeroVec_replicate {α : Type} [LinearOrderedField α] (n : ℕ) :
    isZeroVec (List.replicate n (0 : α)) :=
  fun _ hx => List.eq_of_mem_replicate hx

/-- The position-writing fold of the batch assembly preserves length. -/
theorem foldl_set_length {β : Type} :
    ∀ (ps : List (ℕ × β)) (base : List β),
      (ps.foldl (fun r p => r.set p.1 p.2) base).length = base.length := by
  intro ps
  induction ps with
  | nil => intro base; rfl
  | cons p rest ih =>
      intro base
      rw [List.foldl_cons, ih, List.length_set]

/-- Positions that are never written keep their base value. -/
theorem foldl_set_getD_not_mem {β : Type} (d : β) :
    ∀ (ps : List (ℕ × β)) (base : List β) (j : ℕ), j ∉ ps.map Prod.fst →
      (ps.foldl (fun r p => r.set p.1 p.2) base).getD j d = base.getD j d := by
  intro ps
  induction ps with
  | nil => intro base j _; rfl
  | cons p rest ih =>
      intro base j hj
      rw [List.foldl_cons, ih _ j (fun h => hj (List.mem_cons_of_mem _ h)),
        getD_set]
      rw [if_neg]
      intro hc
      exact hj (hc.1 ▸ List.mem_map_of_mem Prod.fst (List.mem_cons_self p rest))

/-- A position written once (the written positions being pairwise distinct)
holds the written value. -/
theorem foldl_set_getD_mem {β : Type} (d : β) :
    ∀ (ps : List (ℕ × β)) (base : List β) (j : ℕ) (w : β),
      (ps.map Prod.fst).Nodup → (j, w) ∈ ps → j < base.length →
      (ps.foldl (fun r p => r.set p.1 p.2) base).getD j d = w := by
  intro ps
  induction ps with
  | nil => intro base j w _ h _; cases h
  | cons p rest ih =>
      intro base j w hnd hmem hlt
      obtain ⟨p1, p2⟩ := p
      have hnd' : p1 ∉ rest.map Prod.fst ∧ (rest.map Prod.fst).Nodup := by
        rw [List.map_cons] at hnd
        exact List.nodup_cons.mp hnd
      rw [List.foldl_cons]
      rcases List.mem_cons.mp hmem with h | h
      · obtain ⟨rfl, rfl⟩ := Prod.mk.injEq .. ▸ h
        rw [foldl_set_getD_not_mem d rest _ j hnd'.1, getD_set,
          if_pos ⟨rfl, hlt⟩]
      · exact ih (base.set p1 p2) j w hnd'.2 h
          (by rw [List.length_set]; exact hlt)

/-- Inversion of a successful `exceptMapM`: every input encoded to its
output, in order. -/
theorem exceptMapM_forall₂ {β γ : Type} (f : β → Except String γ) :
    ∀ (l : List β) (vs : List γ), exceptMapM f l = .ok vs →
      List.Forall₂ (fun x v => f x = .ok v) l vs := by
  intro l
  induction l with
  | nil =>
      intro vs h
      cases h
      exact List.Forall₂.nil
  | cons x rest ih =>
      intro vs h
      rw [exceptMapM] at h
      cases hf : f x with
      | error e => rw [hf] at h; cases h
      | ok v =>
          rw [hf] at h
          cases hr : exceptMapM f rest with
          | error e => rw [hr] at h; cases h
          | ok vs' =>
              rw [hr] at h
              cases h
              exact List.Forall₂.cons hf (ih vs' hr)

/-- `exceptMapM` succeeds when every element encodes successfully. -/
theorem exceptMapM_total {β γ : Type} (f : β → Except String γ) :
    ∀ (l : List β), (∀ x ∈ l, ∃ v, f x = .ok v) →
      ∃ vs, exceptMapM f l = .ok vs := by
  intro l
  induction l with
  | nil => intro _; exact ⟨[], rfl⟩
  | cons x rest ih =>
      intro h
      obtain ⟨v, hv⟩ := h x (List.mem_cons_self x rest)
      obtain ⟨vs, hvs⟩ := ih (fun y hy => h y (List.mem_cons_of_mem x hy))
      exact ⟨v :: vs, by rw [exceptMapM, hv, hvs]⟩

/-- Locate, for a tracked pair `(i, t)` of the filtered enumeration, the
written pair `(i, g w)` of the assembly zip, where `w` is `t`'s encoding. -/
theorem zip_find {γ δ : Type} (g : γ → δ) :
    ∀ (l1 : List (ℕ × String)) (l2 : List γ) (R : String → γ → Prop),
      List.Forall₂ R (l1.map Prod.snd) l2 → ∀ i t, (i, t) ∈ l1 →
      ∃ w, R t w ∧ (i, g w) ∈ (l1.map Prod.fst).zip (l2.map g) := by
  intro l1
  induction l1 with
  | nil => intro l2 R _ i t h; cases h
  | cons p rest ih =>
      intro l2 R hfa i t hmem
      rw [List.map_cons] at hfa
      cases hfa with
      | cons hR hfa' =>
          rename_i w ws
          rcases List.mem_cons.mp hmem with h | h
          · refine ⟨w, ?_, ?_⟩
            · have : t = p.2 := congrArg Prod.snd h.symm ▸ rfl
              rw [show t = p.2 from congrArg Prod.snd h]
              exact hR
            · rw [show i = p.1 from congrArg Prod.fst h]
              exact List.mem_cons_self _ _
          · obtain ⟨w', hw', hmem'⟩ := ih ws R hfa' i t h
            exact ⟨w', hw', List.mem_cons_of_mem _ hmem'⟩

/-- A normalized encoding of non-zero norm is not the zero vector. -/
theorem normalizeStep_not_zero (svc : EmbeddingService ℝ)
    (hs : svc.sqrtFn = Real.sqrt) {v : List ℝ} (hnz : normSq v ≠ 0) :
    ¬ isZeroVec (normalizeStep svc v) := by
  intro hz
  have hpos : 0 < normSq v := lt_of_le_of_ne (normSq_nonneg v) (Ne.symm hnz)
  have hn : (0 : ℝ) < npNorm svc v := by
    rw [npNorm, hs]
    exact Real.sqrt_pos.mpr hpos
  simp only [normalizeStep, if_pos hn] at hz
  have h0 := normSq_of_isZeroVec hz
  rw [normSq_map_div] at h0
  rcases div_eq_zero_iff.mp h0 with h | h
  · exact hnz h
  · exact absurd h (ne_of_gt (mul_pos hn hn))

/-- Positional characterization of `generate_embeddings_batch` when every
non-empty text encodes successfully: an empty/whitespace position holds the
zero vector, and a non-empty position holds the normalized encoding of its
text. -/
theorem batch_getD_char {α : Type} [LinearOrderedField α]
    (svc : EmbeddingService α) (texts : List String) (bs : ℕ)
    (henc : ∀ s ∈ texts, pyNonEmpty s = true → ∃ v, svc.encode s = .ok v) :
    ∀ i, i < texts.length →
      (pyNonEmpty (texts.getD i "") = false →
        (generate_embeddings_batch svc texts bs).getD i [] =
          List.replicate svc.embedding_dim 0) ∧
      (∀ v, pyNonEmpty (texts.getD i "") = true →
        svc.encode (texts.getD i "") = .ok v →
        (generate_embeddings_batch svc texts bs).getD i [] =
          normalizeStep svc v) := by
  intro i hi
  have ht : texts ≠ [] := by
    intro h
    subst h
    simp at hi
  have hgetE : texts[i]? = some (texts.getD i "") := by
    rw [List.getD_eq_getElem?_getD]
    cases hq : texts[i]? with
    | none => exact absurd (List.getElem?_eq_none_iff.mp hq) (by omega)
    | some x => rfl
  constructor
  · intro hfalse
    have hnotin :
        i ∉ (texts.enum.filter (fun p => pyNonEmpty p.2)).map Prod.fst := by
      intro hin
      obtain ⟨p, hp, hp1⟩ := List.mem_map.mp hin
      obtain ⟨hpe, hpp⟩ := List.mem_filter.mp hp
      have hq : texts[p.1]? = some p.2 :=
        List.mem_enum_iff_getElem?.mp hpe
      rw [hp1, hgetE] at hq
      rw [show p.2 = texts.getD i "" from (Option.some.inj hq).symm] at hpp
      rw [hpp] at hfalse
      cases hfalse
    simp only [generate_embeddings_batch]
    rw [if_neg ht]
    by_cases hne0 : texts.enum.filter (fun p => pyNonEmpty p.2) = []
    · rw [if_pos hne0, getD_replicate, if_pos hi]
    · rw [if_neg hne0]
      cases hmap : exceptMapM svc.encode
          ((texts.enum.filter (fun p => pyNonEmpty p.2)).map Prod.snd) with
      | error e => rw [getD_replicate, if_pos hi]
      | ok embs =>
          have hfa := exceptMapM_forall₂ _ _ _ hmap
          have hlen :
              ((texts.enum.filter (fun p => pyNonEmpty p.2)).map
                Prod.fst).length ≤ (embs.map (normalizeStep svc)).length := by
            have h1 := hfa.length_eq
            simp only [List.length_map] at h1 ⊢
            omega
          rw [foldl_set_getD_not_mem _ _ _ _
              (by rwa [List.map_fst_zip _ _ hlen]),
            getD_replicate, if_pos hi]
  · intro v htrue hv
    have hmem_ne : (i, texts.getD i "") ∈
        texts.enum.filter (fun p => pyNonEmpty p.2) :=
      List.mem_filter.mpr
        ⟨List.mk_mem_enum_iff_getElem?.mpr hgetE, htrue⟩
    have hne0 : texts.enum.filter (fun p => pyNonEmpty p.2) ≠ [] :=
      List.ne_nil_of_mem hmem_ne
    have htotal : ∀ x ∈ (texts.enum.filter
        (fun p => pyNonEmpty p.2)).map Prod.snd,
        ∃ w, svc.encode x = .ok w := by
      intro x hx
      obtain ⟨p, hp, hp2⟩ := List.mem_map.mp hx
      obtain ⟨hpe, hpp⟩ := List.mem_filter.mp hp
      have hq : texts[p.1]? = some p.2 :=
        List.mem_enum_iff_getElem?.mp hpe
      have hxmem : x ∈ texts := by
        rw [← hp2]
        exact List.getElem?_mem hq
      exact henc x hxmem (hp2 ▸ hpp)
    simp only [generate_embeddings_batch]
    rw [if_neg ht, if_neg hne0]
    cases hmap : exceptMapM svc.encode
        ((texts.enum.filter (fun p => pyNonEmpty p.2)).map Prod.snd) with
    | error e =>
        obtain ⟨embs, hok⟩ := exceptMapM_total _ _ htotal
        rw [hmap] at hok
        cases hok
    | ok embs =>
        have hfa := exceptMapM_forall₂ _ _ _ hmap
        obtain ⟨w, hw, hzip⟩ := zip_find (normalizeStep svc) _ embs _ hfa i
          (texts.getD i "") hmem_ne
        have hwv : w = v := Except.ok.inj (hw.symm.trans hv)
        subst hwv
        have hlen :
            ((texts.enum.filter (fun p => pyNonEmpty p.2)).map
              Prod.fst).length ≤ (embs.map (normalizeStep svc)).length := by
          have h1 := hfa.length_eq
          simp only [List.length_map] at h1 ⊢
          omega
        have hndub :
            ((((texts.enum.filter (fun p => pyNonEmpty p.2)).map
              Prod.fst).zip (embs.map (normalizeStep svc))).map
                Prod.fst).Nodup := by
          rw [List.map_fst_zip _ _ hlen]
          exact List.Nodup.sublist
            ((List.filter_sublist _).map Prod.fst)
            (List.nodup_enum_map_fst texts)
        rw [foldl_set_getD_mem _ _ _ _ _ hndub hzip
          (by rw [List.length_replicate]; exact hi)]

/-- C8: batch and single embedding agree on a singleton input for every
text (including the empty, whitespace and model-failure cases); the batch
result has the same length as its input; and, when the model succeeds with
a non-zero vector on every non-empty text (the behavior of a real
sentence-transformer), the zero vectors in the output sit exactly at the
positions of the empty/whitespace inputs. -/
theorem C8_batch_single_consistency (svc : EmbeddingService ℝ)
    (hs : svc.sqrtFn = Real.sqrt) (t : String) (bs bs' : ℕ)
    (texts : List String)
    (henc : ∀ s ∈ texts, pyNonEmpty s = true →
      ∃ v, svc.encode s = .ok v ∧ normSq v ≠ 0) :
    (generate_embeddings_batch svc [t] bs).getD 0 [] =
      generate_embedding svc t ∧
    (generate_embeddings_batch svc texts bs').length = texts.length ∧
    ∀ i, i < texts.length →
      (isZeroVec ((generate_embeddings_batch svc texts bs').getD i []) ↔
        pyNonEmpty (texts.getD i "") = false) := by
  refine ⟨?_, ?_, ?_⟩
  · by_cases hne : pyNonEmpty t = true
    · cases hv : svc.encode t with
      | error e =>
          simp [generate_embeddings_batch, generate_embedding, exceptMapM,
            hne, hv, List.filter]
      | ok v =>
          simp [generate_embeddings_batch, generate_embedding, exceptMapM,
            hne, hv, List.filter]
    · simp [generate_embeddings_batch, generate_embedding, exceptMapM,
        eq_false_of_ne_true hne, List.filter]
  · by_cases ht : texts = []
    · subst ht; rfl
    · simp only [generate_embeddings_batch]
      rw [if_neg ht]
      by_cases hne0 : texts.enum.filter (fun p => pyNonEmpty p.2) = []
      · rw [if_pos hne0, List.length_replicate]
      · rw [if_neg hne0]
        cases hmap : exceptMapM svc.encode
            ((texts.enum.filter (fun p => pyNonEmpty p.2)).map Prod.snd) with
        | error e => rw [List.length_replicate]
        | ok embs => rw [foldl_set_length, List.length_replicate]
  · intro i hi
    have hchar := batch_getD_char svc texts bs'
      (fun s hsm hp => (henc s hsm hp).imp (fun v hv => hv.1)) i hi
    by_cases hp : pyNonEmpty (texts.getD i "") = true
    · obtain ⟨v, hv, hnz⟩ := henc (texts.getD i "")
        (List.getElem?_mem (by
          rw [List.getD_eq_getElem?_getD]
          cases hq : texts[i]? with
          | none => exact absurd (List.getElem?_eq_none_iff.mp hq) (by omega)
          | some x => rfl)) hp
      rw [hchar.2 v hp hv]
      exact iff_of_false (normalizeStep_not_zero svc hs hnz)
        (by intro hc; rw [hp] at hc; cases hc)
    · have hp' : pyNonEmpty (texts.getD i "") = false :=
        eq_false_of_ne_true hp
      rw [hchar.1 hp']
      exact iff_of_true (isZeroVec_replicate svc.embedding_dim) hp'

/-- Witness for C8: the always-`[1, 0]` model on the texts `["ab", " "]`
and the singleton `["ab"]`. -/
theorem C8_witness :
    (generate_embeddings_batch exSvcR8 ["ab"] 32).getD 0 [] =
      generate_embedding exSvcR8 "ab" ∧
    (generate_embeddings_batch exSvcR8 ["ab", " "] 32).length =
      (["ab", " "] : List String).length ∧
    ∀ i, i < (["ab", " "] : List String).length →
      (isZeroVec ((generate_embeddings_batch exSvcR8 ["ab", " "] 32).getD
          i []) ↔
        pyNonEmpty ((["ab", " "] : List String).getD i "") = false) :=
  C8_batch_single_consistency exSvcR8 rfl "ab" 32 32 ["ab", " "]
    (fun s _ _ => ⟨[1, 0], rfl, by
      rw [normSq_cons, normSq_cons]
      norm_num [normSq, dotP]⟩)

/-- C9 counterexample: with an empty embeddings list and a one-element
metadata list the lengths differ, yet `add_embeddings` returns `[]`
without raising — the early empty-input return bypasses the length
check. -/
theorem C9_counterexample :
    ([] : List (List ℚ)).length ≠
      [({ document_id := "x" } : ChunkMeta)].length ∧
    add_embeddings (α := ℚ) { embedding_dim := 2 } []
        [{ document_id := "x" }] =
      .ok ([], { embedding_dim := 2 }) :=
  ⟨by decide, by with_unfolding_all rfl⟩

/-- Setting the `deleted` flag twice is the same as setting it once. -/
theorem set_deleted_idem (x : ChunkMeta) :
    ({ { x with deleted := true } with deleted := true } : ChunkMeta) =
      { x with deleted := true } := rfl

/-- One step of the `markDeleted` fold. -/
theorem markDeleted_step (m : List ChunkMeta) (i : ℕ) (rest : List ℕ) :
    markDeleted m (i :: rest) =
      markDeleted
        (if i < m.length then
          m.set i { m.getD i {} with deleted := true } else m) rest := by
  rw [markDeleted, List.foldl_cons, markDeleted]

/-- `markDeleted` preserves the metadata length. -/
theorem markDeleted_length :
    ∀ (idxs : List ℕ) (m : List ChunkMeta),
      (markDeleted m idxs).length = m.length := by
  intro idxs
  induction idxs with
  | nil => intro m; rfl
  | cons i rest ih =>
      intro m
      rw [markDeleted_step, ih]
      split
      · simp
      · rfl

/-- Pointwise effect of `markDeleted`: exactly the in-range tracked indices
get their `deleted` flag set; every other entry is untouched. -/
theorem markDeleted_getD :
    ∀ (idxs : List ℕ) (m : List ChunkMeta) (j : ℕ),
      (markDeleted m idxs).getD j {} =
        if j ∈ idxs ∧ j < m.length then
          { m.getD j {} with deleted := true }
        else m.getD j {} := by
  intro idxs
  induction idxs with
  | nil => intro m j; simp [markDeleted]
  | cons i rest ih =>
      intro m j
      rw [markDeleted_step, ih]
      by_cases hi : i < m.length
      · rw [if_pos hi]
        have hlen : (m.set i { m.getD i {} with deleted := true }).length =
            m.length := by simp
        rw [hlen, getD_set]
        by_cases hji : j ∈ rest ∧ j < m.length
        · rw [if_pos hji]
          by_cases hij : i = j ∧ i < m.length
          · rw [if_pos hij, if_pos ⟨List.mem_cons_of_mem i hji.1, hji.2⟩,
              ← hij.1, set_deleted_idem, hij.1]
          · rw [if_neg hij, if_pos ⟨List.mem_cons_of_mem i hji.1, hji.2⟩]
        · rw [if_neg hji]
          by_cases hij : i = j ∧ i < m.length
          · rw [if_pos hij, if_pos ⟨hij.1 ▸ List.mem_cons_self i rest,
              hij.1 ▸ hij.2⟩, hij.1]
          · rw [if_neg hij, if_neg (by
              intro ⟨hmem, hjl⟩
              rcases List.mem_cons.mp hmem with h | h
              · exact hij ⟨h.symm, h ▸ hjl⟩
              · exact hji ⟨h, hjl⟩)]
      · rw [if_neg hi]
        by_cases hji : j ∈ rest ∧ j < m.length
        · rw [if_pos hji, if_pos ⟨List.mem_cons_of_mem i hji.1, hji.2⟩]
        · rw [if_neg hji, if_neg (by
            intro ⟨hmem, hjl⟩
            rcases List.mem_cons.mp hmem with h | h
            · exact hi (h ▸ hjl)
            · exact hji ⟨h, hjl⟩)]

/-- A successful dict lookup yields a member of the association list. -/
theorem alookup_mem {β : Type} {k : String} {v : β} :
    ∀ {l : List (String × β)}, alookup k l = some v → (k, v) ∈ l := by
  intro l
  induction l with
  | nil => intro h; cases h
  | cons p rest ih =>
      intro h
      obtain ⟨p1, p2⟩ := p
      rw [alookup] at h
      by_cases hp : p1 = k
      · rw [if_pos hp] at h
        have hv : p2 = v := Option.some.inj h
        rw [hp, hv]
        exact List.mem_cons_self _ _
      · rw [if_neg hp] at h
        exact List.mem_cons_of_mem _ (ih h)

/-- A key absent from the key list looks up to `none`. -/
theorem alookup_eq_none {β : Type} (k : String) :
    ∀ (l : List (String × β)), k ∉ l.map Prod.fst → alookup k l = none := by
  intro l
  induction l with
  | nil => intro _; rfl
  | cons p rest ih =>
      intro h
      have hp : ¬ p.1 = k := fun hp =>
        h (hp ▸ List.mem_map_of_mem Prod.fst (List.mem_cons_self p rest))
      rw [alookup, if_neg hp]
      exact ih fun hm => h (List.mem_cons_of_mem _ hm)

/-- After deleting a key from a dict with unique keys, the key is gone. -/
theorem eraseKey_alookup_self {β : Type} (k : String) :
    ∀ (l : List (String × β)), (l.map Prod.fst).Nodup →
      alookup k (eraseKey k l) = none := by
  intro l
  induction l with
  | nil => intro _; rfl
  | cons p rest ih =>
      intro hnd
      rw [eraseKey]
      by_cases hp : p.1 = k
      · rw [if_pos hp]
        exact alookup_eq_none k rest (hp ▸ (List.nodup_cons.mp hnd).1)
      · rw [if_neg hp, alookup, if_neg hp]
        exact ih (List.nodup_cons.mp hnd).2

/-- Deleting one key does not affect lookups of other keys. -/
theorem eraseKey_alookup_ne {β : Type} (k k' : String) (hne : k' ≠ k) :
    ∀ (l : List (String × β)),
      alookup k' (eraseKey k l) = alookup k' l := by
  intro l
  induction l with
  | nil => rfl
  | cons p rest ih =>
      rw [eraseKey]
      by_cases hp : p.1 = k
      · rw [if_pos hp, alookup, if_neg (by rw [hp]; exact fun h => hne h.symm)]
      · rw [if_neg hp, alookup, alookup]
        by_cases hp' : p.1 = k'
        · rw [if_pos hp', if_pos hp']
        · rw [if_neg hp', if_neg hp', ih]

/-- Deleting a present key shrinks the dict by exactly one entry. -/
theorem eraseKey_length {β : Type} (k : String) (v : β) :
    ∀ (l : List (String × β)), alookup k l = some v →
      (eraseKey k l).length + 1 = l.length := by
  intro l
  induction l with
  | nil => intro h; cases h
  | cons p rest ih =>
      intro h
      rw [alookup] at h
      rw [eraseKey]
      by_cases hp : p.1 = k
      · rw [if_pos hp]; rfl
      · rw [if_neg hp]
        rw [if_neg hp] at h
        simp only [List.length_cons]
        rw [← ih h]

/-- Deleting a key commutes with rewriting the values of a dict. -/
theorem eraseKey_map {β γ : Type} (k : String) (f : β → γ) :
    ∀ (l : List (String × β)),
      (eraseKey k l).map (fun p => (p.1, f p.2)) =
        eraseKey k (l.map (fun p => (p.1, f p.2))) := by
  intro l
  induction l with
  | nil => rfl
  | cons p rest ih =>
      rw [eraseKey, List.map_cons, eraseKey]
      by_cases hp : p.1 = k
      · rw [if_pos hp, if_pos hp]
      · rw [if_neg hp, if_neg hp, List.map_cons, ih]

/-- Dict lookup commutes with rewriting the values. -/
theorem alookup_map {β γ : Type} (k : String) (f : β → γ) :
    ∀ (l : List (String × β)),
      alookup k (l.map (fun p => (p.1, f p.2))) = (alookup k l).map f := by
  intro l
  induction l with
  | nil => rfl
  | cons p rest ih =>
      rw [List.map_cons, alookup, alookup]
      by_cases hp : p.1 = k
      · rw [if_pos hp, if_pos hp]; rfl
      · rw [if_neg hp, if_neg hp, ih]

/-- C10: on a well-formed store, `remove_document d` for a tracked document
`d` returns the number of tracked indices, leaves the FAISS rows (and so
`get_stats.total_vectors`) untouched, sets the `deleted` flag on exactly
`d`'s entries while every entry of any other document is unchanged, and
drops `d` — and only `d` — from the per-document tracking and hence from
`get_stats`'s `num_documents` and `chunks_per_document`, even though the
vectors remain stored. -/
theorem C10_remove_document_frame {α : Type} [LinearOrderedField α]
    (s : VectorStore α) (d : String) (idxs : List ℕ) (hwf : storeWF s)
    (hd : alookup d s.document_chunks = some idxs) :
    (remove_document s d).1 = idxs.length ∧
    (remove_document s d).2.vectors = s.vectors ∧
    (get_stats (remove_document s d).2).total_vectors =
      (get_stats s).total_vectors ∧
    (remove_document s d).2.chunk_metadata.length =
      s.chunk_metadata.length ∧
    (∀ j < s.chunk_metadata.length,
      (s.chunk_metadata.getD j {}).document_id ≠ d →
        (remove_document s d).2.chunk_metadata.getD j {} =
          s.chunk_metadata.getD j {}) ∧
    (∀ i ∈ idxs,
      (remove_document s d).2.chunk_metadata.getD i {} =
        { s.chunk_metadata.getD i {} with deleted := true }) ∧
    alookup d (remove_document s d).2.document_chunks = none ∧
    (∀ d', d' ≠ d →
      alookup d' (remove_document s d).2.document_chunks =
        alookup d' s.document_chunks) ∧
    (get_stats (remove_document s d).2).num_documents + 1 =
      (get_stats s).num_documents ∧
    alookup d (get_stats (remove_document s d).2).chunks_per_document =
      none ∧
    (∀ d', d' ≠ d →
      alookup d' (get_stats (remove_document s d).2).chunks_per_document =
        alookup d' (get_stats s).chunks_per_document) := by
  have hmem : (d, idxs) ∈ s.document_chunks := alookup_mem hd
  have hidx : ∀ i ∈ idxs, i < s.chunk_metadata.length ∧
      (s.chunk_metadata.getD i {}).document_id = d :=
    fun i hi => hwf.2 (d, idxs) hmem i hi
  rw [remove_document, hd]
  refine ⟨rfl, rfl, rfl, markDeleted_length idxs s.chunk_metadata,
    ?_, ?_, ?_, ?_, ?_, ?_, ?_⟩
  · intro j _ hdoc
    rw [markDeleted_getD, if_neg]
    intro ⟨hjm, _⟩
    exact hdoc (hidx j hjm).2
  · intro i hi
    rw [markDeleted_getD, if_pos ⟨hi, (hidx i hi).1⟩]
  · exact eraseKey_alookup_self d s.document_chunks hwf.1
  · intro d' hne
    exact eraseKey_alookup_ne d d' hne s.document_chunks
  · show (eraseKey d s.document_chunks).length + 1 = _
    exact eraseKey_length d idxs s.document_chunks hd
  · show alookup d ((eraseKey d s.document_chunks).map
      (fun p => (p.1, p.2.length))) = none
    rw [eraseKey_map d List.length s.document_chunks,
      eraseKey_alookup_self d _ (by
        have : (s.document_chunks.map (fun p => (p.1, p.2.length))).map
            Prod.fst = s.document_chunks.map Prod.fst := by
          simp
        rw [this]; exact hwf.1)]
  · intro d' hne
    show alookup d' ((eraseKey d s.document_chunks).map
        (fun p => (p.1, p.2.length))) =
      alookup d' (s.document_chunks.map (fun p => (p.1, p.2.length)))
    rw [eraseKey_map d List.length s.document_chunks,
      eraseKey_alookup_ne d d' hne]

/-- Witness for C10 at a concrete well-formed store: removing document `b`
from the four-entry store. -/
theorem C10_witness :
    (remove_document c4Store "b").1 = [0, 1, 2].length ∧
    (remove_document c4Store "b").2.vectors = c4Store.vectors ∧
    (get_stats (remove_document c4Store "b").2).total_vectors =
      (get_stats c4Store).total_vectors ∧
    (remove_document c4Store "b").2.chunk_metadata.length =
      c4Store.chunk_metadata.length ∧
    (∀ j < c4Store.chunk_metadata.length,
      (c4Store.chunk_metadata.getD j {}).document_id ≠ "b" →
        (remove_document c4Store "b").2.chunk_metadata.getD j {} =
          c4Store.chunk_metadata.getD j {}) ∧
    (∀ i ∈ [0, 1, 2],
      (remove_document c4Store "b").2.chunk_metadata.getD i {} =
        { c4Store.chunk_metadata.getD i {} with deleted := true }) ∧
    alookup "b" (remove_document c4Store "b").2.document_chunks = none ∧
    (∀ d', d' ≠ "b" →
      alookup d' (remove_document c4Store "b").2.document_chunks =
        alookup d' c4Store.document_chunks) ∧
    (get_stats (remove_document c4Store "b").2).num_documents + 1 =
      (get_stats c4Store).num_documents ∧
    alookup "b"
      (get_stats (remove_document c4Store "b").2).chunks_per_document =
      none ∧
    (∀ d', d' ≠ "b" →
      alookup d'
          (get_stats (remove_document c4Store "b").2).chunks_per_document =
        alookup d' (get_stats c4Store).chunks_per_document) :=
  C10_remove_document_frame c4Store "b" [0, 1, 2]
    (by unfold storeWF; with_unfolding_all decide) (by with_unfolding_all rfl)

/-- The result-building loop never grows past `top_k` when it starts below
`top_k`: it stops as soon as `top_k` results are collected. -/
theorem buildResults_length_le {α : Type} [LinearOrderedField α]
    (s : VectorStore α) (q : List α) (f : Option String) (k : ℕ) :
    ∀ (cands : List ℕ) (acc : List (SearchResult α)), acc.length < k →
      (buildResults s q f k cands acc).length ≤ k := by
  intro cands
  induction cands with
  | nil => intro acc h; exact Nat.le_of_lt h
  | cons i rest ih =>
      intro acc h
      simp only [buildResults]
      split
      · split
        · exact ih acc h
        · split
          · next hk => simp only [List.length_append, List.length_singleton]; omega
          · next hk => exact ih _ (by simp only [List.length_append,
              List.length_singleton] at hk ⊢; omega)
      · exact ih acc h

/-- Every result produced by the document-filtered building loop either was
already in the accumulator or is the `resultAt` of some candidate position
whose metadata carries the filter document. -/
theorem buildResults_mem {α : Type} [LinearOrderedField α]
    (s : VectorStore α) (q : List α) (d : String) (k : ℕ) :
    ∀ (cands : List ℕ) (acc : List (SearchResult α)) (r : SearchResult α),
      r ∈ buildResults s q (some d) k cands acc →
      r ∈ acc ∨ ∃ i ∈ cands, i < s.chunk_metadata.length ∧
        (s.chunk_metadata.getD i {}).document_id = d ∧ r = resultAt s q i := by
  intro cands
  induction cands with
  | nil => intro acc r hr; exact Or.inl hr
  | cons i rest ih =>
      intro acc r hr
      simp only [buildResults] at hr
      by_cases hi : i < s.chunk_metadata.length
      · rw [if_pos hi] at hr
        by_cases hf :
            (decide ((s.chunk_metadata.getD i {}).document_id ≠ d)) = true
        · rw [if_pos hf] at hr
          rcases ih acc r hr with h | ⟨j, hj, hlt, hdoc, hres⟩
          · exact Or.inl h
          · exact Or.inr ⟨j, List.mem_cons_of_mem i hj, hlt, hdoc, hres⟩
        · rw [if_neg hf] at hr
          have hdoc : (s.chunk_metadata.getD i {}).document_id = d := by
            simpa using hf
          have hcase :
              r ∈ acc ++ [resultAt s q i] ∨
                r ∈ buildResults s q (some d) k rest
                  (acc ++ [resultAt s q i]) := by
            by_cases hk : k ≤ (acc ++ [resultAt s q i]).length
            · rw [if_pos hk] at hr; exact Or.inl hr
            · rw [if_neg hk] at hr; exact Or.inr hr
          rcases hcase with hmem | hrec
          · rcases List.mem_append.mp hmem with h | h
            · exact Or.inl h
            · exact Or.inr ⟨i, List.mem_cons_self i rest, hi, hdoc,
                List.mem_singleton.mp h⟩
          · rcases ih _ r hrec with h | ⟨j, hj, hlt, hdoc', hres⟩
            · rcases List.mem_append.mp h with h' | h'
              · exact Or.inl h'
              · exact Or.inr ⟨i, List.mem_cons_self i rest, hi, hdoc,
                  List.mem_singleton.mp h'⟩
            · exact Or.inr ⟨j, List.mem_cons_of_mem i hj, hlt, hdoc', hres⟩
      · rw [if_neg hi] at hr
        rcases ih acc r hr with h | ⟨j, hj, hlt, hdoc, hres⟩
        · exact Or.inl h
        · exact Or.inr ⟨j, List.mem_cons_of_mem i hj, hlt, hdoc, hres⟩

/-- C4 (amended): a document-filtered search asks FAISS for
`min(top_k * 3, ntotal)` ranked candidates (the over-fetch, capped at the
index size), returns at most `top_k` results, and every returned result is
the entry of one of those candidates and belongs to the filter document.
No guarantee of `top_k` results exists even when enough entries of the
document are stored: the counterexample shows starvation when the document
ranks below the over-fetch window (and the loop never excludes tombstoned
entries). -/
theorem C4_overfetch_amended {α : Type} [LinearOrderedField α]
    (s : VectorStore α) (q : List α) (k : ℕ) (d : String) (hd : d ≠ "") :
    (searchCandidates s q k (some d)).length ≤ k * 3 ∧
    (searchCandidates s q k (some d)).length ≤ s.vectors.length ∧
    (search_similar s q k (some d)).length ≤ k ∧
    ∀ r ∈ search_similar s q k (some d),
      r.document_id = d ∧
      ∃ i ∈ searchCandidates s q k (some d),
        i < s.chunk_metadata.length ∧
        (s.chunk_metadata.getD i {}).document_id = d ∧ r = resultAt s q i := by
  have hfil : filterOn (some d) = true := by simp [filterOn, hd]
  have hc1 : (searchCandidates s q k (some d)).length ≤ k * 3 := by
    simp only [searchCandidates, hfil, if_true, List.length_take]
    omega
  have hc2 : (searchCandidates s q k (some d)).length ≤ s.vectors.length := by
    simp only [searchCandidates, hfil, if_true, List.length_take]
    omega
  refine ⟨hc1, hc2, ?_, ?_⟩
  · rw [search_similar]
    by_cases h0 : s.vectors.length = 0
    · rw [if_pos h0]; exact Nat.zero_le k
    · rw [if_neg h0]
      simp only [hfil, if_true]
      rcases Nat.eq_zero_or_pos k with hk | hk
      · subst hk
        have : searchCandidates s q 0 (some d) = [] := by
          simp [searchCandidates, hfil]
        rw [this]
        exact Nat.le_refl 0
      · exact buildResults_length_le s q (some d) k _ [] (by simpa using hk)
  · intro r hr
    rw [search_similar] at hr
    by_cases h0 : s.vectors.length = 0
    · rw [if_pos h0] at hr; cases hr
    · rw [if_neg h0] at hr
      simp only [hfil, if_true] at hr
      rcases buildResults_mem s q d k _ [] r hr with h | ⟨i, hi, hlt, hdoc, hres⟩
      · cases h
      · exact ⟨by rw [hres]; exact hdoc, i, hi, hlt, hdoc, hres⟩

/-- Witness for C4's amended theorem at the counterexample store: the
filtered search for document `a` with `top_k = 1` respects the over-fetch
and filtering contract (it returns at most 1 result, every result from
document `a` and drawn from the 3 ranked candidates). -/
theorem C4_witness :
    (searchCandidates c4Store [1, 0] 1 (some "a")).length ≤ 1 * 3 ∧
    (searchCandidates c4Store [1, 0] 1 (some "a")).length ≤
      c4Store.vectors.length ∧
    (search_similar c4Store [1, 0] 1 (some "a")).length ≤ 1 ∧
    ∀ r ∈ search_similar c4Store [1, 0] 1 (some "a"),
      r.document_id = "a" ∧
      ∃ i ∈ searchCandidates c4Store [1, 0] 1 (some "a"),
        i < c4Store.chunk_metadata.length ∧
        (c4Store.chunk_metadata.getD i {}).document_id = "a" ∧
        r = resultAt c4Store [1, 0] i :=
  C4_overfetch_amended c4Store [1, 0] 1 "a" (by decide)

/-- C9 (amended): when both input lists are non-empty and their lengths
differ, `add_embeddings` raises the descriptive `ValueError` and nothing is
added (the check precedes every mutation, so the store is not part of the
result); when either list is empty, the call instead returns `[]` without
raising and adds nothing, bypassing the length check. -/
theorem C9_add_embeddings_mismatch {α : Type} [LinearOrderedField α]
    (s : VectorStore α) (embs : List (List α)) (data : List ChunkMeta) :
    (embs ≠ [] → data ≠ [] → embs.length ≠ data.length →
      add_embeddings s embs data =
        .error "Number of embeddings must match number of chunk data") ∧
    (embs = [] ∨ data = [] → add_embeddings s embs data = .ok ([], s)) := by
  constructor
  · intro h1 h2 h3
    rw [add_embeddings, if_neg (by simp [h1, h2]), if_pos h3]
  · intro h
    rw [add_embeddings, if_pos h]

/-- Witness for C9: a concrete mismatched non-empty pair raises. -/
theorem C9_witness :
    add_embeddings (α := ℚ) { embedding_dim := 2 } [[1, 0]]
        [{ document_id := "x" }, { document_id := "y" }] =
      .error "Number of embeddings must match number of chunk data" :=
  (C9_add_embeddings_mismatch { embedding_dim := 2 } [[1, 0]]
      [{ document_id := "x" }, { document_id := "y" }]).1
    (by decide) (by decide) (by decide)

/-- A successful `add_embeddings` only appends: the previous metadata is a
prefix of the new metadata, the previous rows are a prefix of the new rows,
and the row count grows by the number of returned indices. -/
theorem add_embeddings_ok {α : Type} [LinearOrderedField α]
    {s : VectorStore α} {embs : List (List α)} {data : List ChunkMeta}
    {idxs : List ℕ} {s' : VectorStore α}
    (h : add_embeddings s embs data = .ok (idxs, s')) :
    s'.chunk_metadata.take s.chunk_metadata.length = s.chunk_metadata ∧
    s'.vectors.take s.vectors.length = s.vectors ∧
    s'.vectors.length = s.vectors.length + idxs.length := by
  rw [add_embeddings] at h
  by_cases h0 : embs = [] ∨ data = []
  · rw [if_pos h0] at h
    cases h
    simp
  · rw [if_neg h0] at h
    by_cases hlen : embs.length ≠ data.length
    · rw [if_pos hlen] at h
      cases h
    · rw [if_neg hlen] at h
      cases h
      have hed : embs.length = data.length := not_ne_iff.mp hlen
      refine ⟨?_, ?_, ?_⟩
      · simp
      · simp
      · simp [List.length_append, hed]

/-- C2 (amended): `process_document` performs no tombstoning at all — on
success it only appends: the previous metadata entries (with their
`deleted` flags) and the previous rows survive unchanged as prefixes of the
new store, and the row count grows by `vectors_added`.  Re-ingesting a
document therefore duplicates its search hits instead of replacing them
(see the counterexample). -/
theorem C2_ingest_appends_never_tombstones {α : Type} [LinearOrderedField α]
    (cfg : ChunkConfig) (svc : EmbeddingService α)
    (dbStore : DocumentChunk → String) (store : VectorStore α)
    (document_id : String) (pages : List String) (bs : ℕ)
    (hsucc :
      (process_document cfg svc dbStore store document_id pages bs).1.success =
        true) :
    (process_document cfg svc dbStore store document_id pages
          bs).2.chunk_metadata.take store.chunk_metadata.length =
      store.chunk_metadata ∧
    (process_document cfg svc dbStore store document_id pages
          bs).2.vectors.take store.vectors.length = store.vectors ∧
    (process_document cfg svc dbStore store document_id pages
          bs).2.vectors.length =
      store.vectors.length +
        (process_document cfg svc dbStore store document_id pages
            bs).1.vectors_added.getD 0 := by
  cases hcd : chunk_document cfg pages document_id with
  | error e =>
      simp [process_document, hcd, Bind.bind, Except.bind] at hsucc
  | ok chunks =>
      by_cases hc : chunks = []
      · simp [process_document, hcd, hc, Bind.bind, Except.bind, Pure.pure,
          Except.pure] at hsucc
      · cases hadd : add_embeddings store
          (generate_embeddings_batch svc (chunks.map (·.text)) bs)
          ((((chunks.zip
                (generate_embeddings_batch svc (chunks.map (·.text))
                  bs)).map (fun p => dbStore p.1)).zip chunks).map (fun p =>
            { chunk_id := p.1
              document_id := p.2.document_id
              chunk_text := p.2.text
              page_number := p.2.page_number
              chunk_index := p.2.chunk_index
              metadata := p.2.metadata : ChunkMeta })) with
        | error e =>
            simp [process_document, hcd, hc, hadd, Bind.bind, Except.bind,
              Functor.map, Except.map] at hsucc
        | ok r =>
            obtain ⟨h1, h2, h3⟩ := add_embeddings_ok hadd
            simp [process_document, hcd, hc, hadd, Bind.bind, Except.bind,
              Functor.map, Except.map]
            exact ⟨h1, h2, h3⟩

/-- Witness for C2's amended theorem: the first concrete ingestion of
`page100` succeeds, and the resulting store extends the empty store by
exactly `vectors_added` rows. -/
theorem C2_witness :
    c2Run1.2.chunk_metadata.take
        ({ embedding_dim := 2 } : VectorStore ℚ).chunk_metadata.length =
      ({ embedding_dim := 2 } : VectorStore ℚ).chunk_metadata ∧
    c2Run1.2.vectors.take
        ({ embedding_dim := 2 } : VectorStore ℚ).vectors.length =
      ({ embedding_dim := 2 } : VectorStore ℚ).vectors ∧
    c2Run1.2.vectors.length =
      ({ embedding_dim := 2 } : VectorStore ℚ).vectors.length +
        c2Run1.1.vectors_added.getD 0 :=
  C2_ingest_appends_never_tombstones cfgDefault exSvcQ (fun _ => "cid")
    { embedding_dim := 2 } "doc1" [page100] 32
    (by with_unfolding_all decide)

/-- C6 (amended): if every call to the answer generator raises with message
`e`, `generate_rag_response` never propagates the exception: it returns the
apology response (which embeds the error message `e`, not a stack trace)
with `has_context = False`, an empty source list, the raw error under the
`error` key — and no `success` key at all. -/
theorem C6_generator_failure_contained {α : Type} [LinearOrderedField α]
    [FloorRing α] (svc : EmbeddingService α) (store : VectorStore α)
    (fmt : α → String) (query : String) (document_id : Option String)
    (top_k max_tokens : ℕ) (e : String)
    (llm : String → ℕ → Except String String)
    (hllm : ∀ p t, llm p t = .error e) :
    generate_rag_response svc store llm fmt query document_id top_k
        max_tokens =
      { response := "Sorry, I encountered an error: " ++ e
        sources := []
        has_context := false
        num_sources := none
        error := some e
        success := none } := by
  rw [generate_rag_response]
  by_cases hr :
      search_documents svc store query top_k document_id = [] <;>
    simp [hr, hllm]

/-- Witness for C6: the amended theorem applied to a concrete service,
store and failing generator. -/
theorem C6_witness :
    generate_rag_response exSvcQ { embedding_dim := 2 }
        (fun _ _ => .error "boom") (fun _ => "0.00") "q" none 5 500 =
      { response := "Sorry, I encountered an error: boom"
        sources := []
        has_context := false
        num_sources := none
        error := some "boom"
        success := none } :=
  C6_generator_failure_contained exSvcQ { embedding_dim := 2 } (fun _ => "0.00")
    "q" none 5 500 "boom" (fun _ _ => .error "boom") (fun _ _ => rfl)

end AIPDF
